import Mathlib

/-
  Verification of the constant-subgraph detector and constant-folding rewriter
  of `src/core/src/analyser/constants.rs`.

  The graph data model (Analyser, Node, Edge, Fact, Tensor, OutletId) lives
  outside the sources provided here; those definitions are modelled from the
  spec's DATA MODEL section.  The two functions under verification,
  `connected_components` and `propagate_constants`, are translated directly
  from `constants.rs`.

  Conventions of the shallow embedding:
  * Rust `Vec<T>` becomes `List T`; in-place mutation becomes functional update
    (`List.set`, append).
  * Rust indexing `v[i]` on boolean classification vectors is rendered with
    `List.getD i false` (the translated code only ever indexes in range; for
    out-of-range indices Rust would panic).
  * Rust `.unwrap()` and fallible indexing inside the rewriter are modelled
    with `Option`: `none` is a panic.  The rewriter's `TractResult` return is
    the inductive `FoldOutcome` which distinguishes a successful return, a
    panic, and a structural error returned as a value.
  * The work-stack `Vec` is a `List` whose head is the top of the stack.
-/

set_option maxHeartbeats 1000000

namespace Tract

/-- Modelled from the spec: an `OutletId` addresses a value-producing port:
`(producing node id, output slot index)`. -/
structure OutletId where
  node : Nat
  slot : Nat
deriving Repr, DecidableEq

/-- Translation of `OutletId::new`. -/
def OutletId.new (node slot : Nat) : OutletId := ⟨node, slot⟩

/-- Modelled from the spec: a `Tensor` is an immutable value blob with a
datatype.  The only structure relevant to this pass is whether the tensor is a
32-bit-integer tensor (in which case its content is the dedup key) or has any
other datatype (in which case its content is opaque, abstracted as a tag).  -/
inductive Tensor where
  | i32s (data : List Int)
  | other (tag : Nat)
deriving Repr, DecidableEq

/-- Modelled from the spec: `take_i32s` extracts the 32-bit-integer content of
a tensor when its datatype is i32, and fails otherwise.  (`clone()` and
`into()` on tensors are identities in this embedding.) -/
def Tensor.take_i32s : Tensor → Option (List Int)
  | .i32s d => some d
  | .other _ => none

/-- Modelled from the spec: the per-edge `Fact` exposes whether the carried
value is concrete and, if so, the concrete tensor.  `value.is_concrete()` is
`value.isSome` and `value.concretize()` is `value` itself. -/
structure Fact where
  value : Option Tensor
deriving Repr, DecidableEq

/-- Modelled from the spec: the polymorphic operation of a node.  One variant
is constant-producing (embedding a tensor, `ops::konst::Const::for_tensor`);
every other operation is opaque here. -/
inductive Op where
  | konst (t : Tensor)
  | generic (tag : Nat)
deriving Repr, DecidableEq

/-- Modelled from the spec: a graph node. -/
structure Node where
  id : Nat
  name : String
  op_name : String
  inputs : List OutletId
  op : Op
deriving Repr, DecidableEq

/-- Modelled from the spec: a graph edge.  The source field is called `from`
in the Rust source; `from` is a reserved word in Lean, hence `from_`. -/
structure Edge where
  id : Nat
  from_ : Option OutletId
  to_node : Option Nat
  fact : Fact
deriving Repr, DecidableEq

/-- Modelled from the spec: the graph container (the analyser): an ordered
sequence of nodes, an ordered sequence of edges, and two parallel adjacency
indexes keyed by node id (`prev_edges` = incoming, `next_edges` = outgoing). -/
structure Analyser where
  nodes : List Node
  edges : List Edge
  prev_edges : List (List Nat)
  next_edges : List (List Nat)
deriving Repr, DecidableEq

/-- Translation of `enum Element`. -/
inductive Element where
  | Node (id : Nat)
  | Edge (id : Nat)
deriving Repr, DecidableEq

/-- Translation of `struct Component`. -/
structure Component where
  elements : List Element
  outputs : List Nat
deriving Repr, DecidableEq

/-! ### The constant-subgraph detector (`connected_components`) -/

/-- Translation of `is_edge_const`: an edge is constant iff its fact reports a
concrete value. -/
def isEdgeConstL (a : Analyser) : List Bool :=
  a.edges.map (fun e => e.fact.value.isSome)

/-- Translation of `is_node_const`: a node is constant iff it has at least one
outgoing edge and all its outgoing edges are constant. -/
def isNodeConstL (a : Analyser) : List Bool :=
  a.next_edges.map (fun next =>
    decide (0 < next.length) && next.all (fun i => (isEdgeConstL a).getD i false))

/-- State threaded through one adjacency scan (`process_edges!`): the edge
coloring, the elements and boundary outputs of the component under
construction, and the work stack. -/
structure EScan where
  ec : List Bool
  elems : List Element
  outs : List Nat
  stack : List Nat
deriving Repr, DecidableEq

/-- Translation of the `process_edges!` macro body: scan one adjacency bucket
of the node being visited.  `other` resolves an edge to its other endpoint
relative to the scanned direction.  The Rust guard
`if !is_edge_const[edge] || is_edge_colored[edge] { continue; }` is rendered
as the positive condition for processing the edge. -/
def processEdges (iec inc : List Bool) (other : Nat → Option Nat) :
    List Nat → EScan → EScan
  | [], s => s
  | edge :: rest, s =>
    if iec.getD edge false = true ∧ s.ec.getD edge false = false then
      let ec' := s.ec.set edge true
      let elems' := s.elems ++ [Element.Edge edge]
      match other edge with
      | none => processEdges iec inc other rest { s with ec := ec', elems := elems' }
      | some target =>
        if inc.getD target false = false then
          processEdges iec inc other rest
            { ec := ec', elems := elems', outs := s.outs ++ [edge], stack := s.stack }
        else
          processEdges iec inc other rest
            { ec := ec', elems := elems', outs := s.outs, stack := target :: s.stack }
    else
      processEdges iec inc other rest s

/-- State threaded through the depth-first traversal: both colorings plus the
current component's elements and outputs. -/
structure NScan where
  nc : List Bool
  ec : List Bool
  elems : List Element
  outs : List Nat
deriving Repr, DecidableEq

/-- Resolver for the incoming direction: `analyser.edges[e].from.map(|n| n.node)`. -/
def otherPrev (a : Analyser) (e : Nat) : Option Nat :=
  (a.edges.get? e).bind (fun ed => ed.from_.map (fun o => o.node))

/-- Resolver for the outgoing direction: `analyser.edges[e].to_node`. -/
def otherNext (a : Analyser) (e : Nat) : Option Nat :=
  (a.edges.get? e).bind (fun ed => ed.to_node)

/-- Translation of the `while let Some(node) = stack.pop()` loop.  The loop is
given fuel; `connected_components` passes `edges.length + 1`, which always
drains the stack: each iteration pops one entry, and an entry is pushed only
when an uncolored in-range edge becomes colored, which happens at most once
per edge. -/
def dfs (a : Analyser) (iec inc : List Bool) : Nat → List Nat → NScan → NScan
  | 0, _, s => s
  | _ + 1, [], s => s
  | fuel + 1, node :: stack, s =>
    if inc.getD node false = true ∧ s.nc.getD node false = false then
      let s1 := processEdges iec inc (otherPrev a) (a.prev_edges.getD node [])
        { ec := s.ec, elems := s.elems ++ [Element.Node node], outs := s.outs,
          stack := stack }
      let s2 := processEdges iec inc (otherNext a) (a.next_edges.getD node []) s1
      dfs a iec inc fuel s2.stack
        { nc := s.nc.set node true, ec := s2.ec, elems := s2.elems, outs := s2.outs }
    else
      dfs a iec inc fuel stack s

/-- State of the outer loop over nodes: both colorings and the emitted
components. -/
structure CCSt where
  nc : List Bool
  ec : List Bool
  comps : List Component
deriving Repr, DecidableEq

/-- Translation of the outer `for (node, &is_const) in is_node_const.iter().enumerate()`
loop: iterate over the node indices, starting a new component (and a new
depth-first traversal) at every constant node not yet colored. -/
def ccLoop (a : Analyser) (iec inc : List Bool) : List Nat → CCSt → CCSt
  | [], st => st
  | node :: rest, st =>
    if inc.getD node false = true ∧ st.nc.getD node false = false then
      let r := dfs a iec inc (a.edges.length + 1) [node]
        { nc := st.nc, ec := st.ec, elems := [], outs := [] }
      ccLoop a iec inc rest { nc := r.nc, ec := r.ec, comps := st.comps ++ [⟨r.elems, r.outs⟩] }
    else
      ccLoop a iec inc rest st

/-- Translation of `connected_components`.  The Rust function returns
`TractResult<Vec<Component>>` but has no failure path (always `Ok`); the
embedding returns the component list directly. -/
def connected_components (a : Analyser) : List Component :=
  (ccLoop a (isEdgeConstL a) (isNodeConstL a) (List.range (isNodeConstL a).length)
    { nc := List.replicate a.nodes.length false,
      ec := List.replicate a.edges.length false,
      comps := [] }).comps

/-! ### The constant-folding rewriter (`propagate_constants`) -/

/-- Translation of `build_const_node`. -/
def build_const_node (id : Nat) (name : String) (tensor : Tensor) : Node :=
  { id := id, name := name, op_name := "Const", inputs := [], op := Op.konst tensor }

/-- The pass-local dedup cache `const_int_nodes : HashMap<ArrayD<i32>, usize>`,
modelled as an association list from i32 tensor content to node id. -/
def lookupCache : List (List Int × Nat) → List Int → Option Nat
  | [], _ => none
  | (k, v) :: rest, key => if k = key then some v else lookupCache rest key

/-- Result of the rewriter: a successful return, a panic (a Rust `unwrap`
failure or out-of-bounds index), or a structural error returned as a value
(`Err` of `TractResult`; `propagate_constants` has no such return path but the
type distinguishes it). -/
inductive FoldOutcome where
  | ok (a : Analyser)
  | panic
  | err (msg : String)
deriving Repr, DecidableEq

/-- Predicate: the outcome is a structural error returned as a value. -/
def FoldOutcome.isStructErr : FoldOutcome → Bool
  | .err _ => true
  | _ => false

/-- Resolution of the replacement producing node for one boundary edge, with
i32 dedup (the `if let Some(tensor) = tensor.clone().take_i32s()` block of the
source): returns the updated cache, the graph with the possibly-appended
constant node, and the chosen node id. -/
def resolveNode (cache : List (List Int × Nat)) (a : Analyser) (tensor : Tensor) :
    List (List Int × Nat) × Analyser × Nat :=
  match tensor.take_i32s with
  | some data =>
    match lookupCache cache data with
    | some v => (cache, a, v)
    | none =>
      let node_id := a.nodes.length
      let node_name := "generated_" ++ toString node_id
      let node := build_const_node node_id node_name (Tensor.i32s data)
      (cache ++ [(data, node_id)], { a with nodes := a.nodes ++ [node] }, node_id)
  | none =>
    let node_id := a.nodes.length
    let node_name := "generated_" ++ toString node_id
    let node := build_const_node node_id node_name tensor
    (cache, { a with nodes := a.nodes ++ [node] }, node_id)

/-- Translation of one iteration of `for i in component.outputs`: materialize
the constant node for boundary edge `i` (with i32 dedup) and rewire the edge.
Returns `none` on panic. -/
def foldStep (st : List (List Int × Nat) × Analyser) (i : Nat) :
    Option (List (List Int × Nat) × Analyser) :=
  let cache := st.1
  let a := st.2
  match a.edges.get? i with
  | none => none
  | some edge0 =>
    match edge0.fact.value with
    | none => none
    | some tensor =>
      -- Resolve the replacement producing node, with i32 dedup.
      let res : List (List Int × Nat) × Analyser × Nat := resolveNode cache a tensor
      let cache1 := res.1
      let a1 := res.2.1
      let const_node_id := res.2.2
      match edge0.from_ with
      | none => none
      | some oldOutlet =>
        let old_node_id := oldOutlet.node
        -- Detach the edge from its previous source.
        match a1.next_edges.get? old_node_id with
        | none => none
        | some successors =>
          match successors.findIdx? (fun x => x = edge0.id) with
          | none => none
          | some position =>
            let a2 := { a1 with
              next_edges := a1.next_edges.set old_node_id (successors.eraseIdx position) }
            -- Detach the target node from its previous source.
            match edge0.to_node with
            | none => none
            | some dest =>
              match a2.nodes.get? dest with
              | none => none
              | some dnode =>
                match dnode.inputs.findIdx? (fun o => o.node = old_node_id) with
                | none => none
                | some p =>
                  let a3 := { a2 with
                    nodes := a2.nodes.set dest
                      { dnode with inputs := dnode.inputs.set p (OutletId.new const_node_id 0) } }
                  -- Attach the edge to its new source.
                  let a4 := { a3 with
                    edges := a3.edges.set i
                      { edge0 with from_ := some (OutletId.new const_node_id 0) } }
                  let a5 := { a4 with
                    prev_edges := a4.prev_edges ++ [[]],
                    next_edges := a4.next_edges ++ [[edge0.id]] }
                  some (cache1, a5)

/-- Translation of the `for i in component.outputs` loop. -/
def foldOutputs : List Nat → List (List Int × Nat) × Analyser →
    Option (List (List Int × Nat) × Analyser)
  | [], st => some st
  | i :: rest, st =>
    match foldStep st i with
    | none => none
    | some st' => foldOutputs rest st'

/-- Translation of the `for component in components` loop. -/
def foldComponents : List Component → List (List Int × Nat) × Analyser →
    Option (List (List Int × Nat) × Analyser)
  | [], st => some st
  | c :: rest, st =>
    match foldOutputs c.outputs st with
    | none => none
    | some st' => foldComponents rest st'

/-- Translation of `propagate_constants`.  `reset_plan` belongs to an external
collaborator (plan invalidation) and is modelled as always succeeding without
touching the graph. -/
def propagate_constants (a : Analyser) : FoldOutcome :=
  let components := connected_components a
  match foldComponents components ([], a) with
  | none => FoldOutcome.panic
  | some st => FoldOutcome.ok st.2

/-- Result graph of a successful fold (the input graph when the fold did not
succeed); convenience for stating concrete evaluations. -/
def foldOk (a : Analyser) : Analyser :=
  match propagate_constants a with
  | .ok b => b
  | _ => a

/-! ### Concrete graphs used for evaluations, counterexamples and witnesses -/

/-- A single constant node `0` whose only (constant) outgoing edge has an
absent destination (`to_node = none`): the edge is a graph-level output. -/
def c1_a : Analyser :=
  { nodes := [{ id := 0, name := "a", op_name := "X", inputs := [], op := Op.generic 0 }],
    edges := [{ id := 0, from_ := some ⟨0, 0⟩, to_node := none, fact := ⟨some (Tensor.i32s [1])⟩ }],
    prev_edges := [[]],
    next_edges := [[0]] }

/-- Two constant source nodes `0` and `1`, each feeding the non-constant
consumer `2` with the identical i32 tensor `[7]`: the second boundary edge
hits the dedup cache. -/
def c2_a : Analyser :=
  { nodes := [{ id := 0, name := "s0", op_name := "X", inputs := [], op := Op.generic 0 },
              { id := 1, name := "s1", op_name := "X", inputs := [], op := Op.generic 1 },
              { id := 2, name := "c", op_name := "Y", inputs := [⟨0,0⟩, ⟨1,0⟩], op := Op.generic 2 }],
    edges := [{ id := 0, from_ := some ⟨0,0⟩, to_node := some 2, fact := ⟨some (Tensor.i32s [7])⟩ },
              { id := 1, from_ := some ⟨1,0⟩, to_node := some 2, fact := ⟨some (Tensor.i32s [7])⟩ }],
    prev_edges := [[], [], [0, 1]],
    next_edges := [[0], [1], []] }

/-- A constant source `0` feeding the non-constant consumer `1`: one boundary
edge, folded into a fresh constant node. -/
def c3_a : Analyser :=
  { nodes := [{ id := 0, name := "s", op_name := "X", inputs := [], op := Op.generic 0 },
              { id := 1, name := "c", op_name := "Y", inputs := [⟨0,0⟩], op := Op.generic 1 }],
    edges := [{ id := 0, from_ := some ⟨0,0⟩, to_node := some 1, fact := ⟨some (Tensor.i32s [1])⟩ }],
    prev_edges := [[], [0]],
    next_edges := [[0], []] }

/-- Node `0` is non-constant (it has a non-constant outgoing edge `1`) but its
constant edge `0` feeds the constant node `1`; node `2` is a non-constant
sink.  Edge `0` is discovered while scanning the incoming bucket of the
constant node `1` and becomes a boundary edge whose consumer is constant. -/
def c4_a : Analyser :=
  { nodes := [{ id := 0, name := "m", op_name := "X", inputs := [], op := Op.generic 0 },
              { id := 1, name := "n", op_name := "Y", inputs := [⟨0,0⟩], op := Op.generic 1 },
              { id := 2, name := "k", op_name := "Z", inputs := [⟨0,1⟩, ⟨1,0⟩], op := Op.generic 2 }],
    edges := [{ id := 0, from_ := some ⟨0,0⟩, to_node := some 1, fact := ⟨some (Tensor.i32s [3])⟩ },
              { id := 1, from_ := some ⟨0,1⟩, to_node := some 2, fact := ⟨none⟩ },
              { id := 2, from_ := some ⟨1,0⟩, to_node := some 2, fact := ⟨some (Tensor.i32s [4])⟩ }],
    prev_edges := [[], [0], [1, 2]],
    next_edges := [[0, 1], [2], []] }

/-- A graph with an invariant violation: the destination node `1` of the
boundary edge has no input entry referencing the old source node `0` (its
input list mentions node `9` instead). -/
def c5_a : Analyser :=
  { nodes := [{ id := 0, name := "s", op_name := "X", inputs := [], op := Op.generic 0 },
              { id := 1, name := "c", op_name := "Y", inputs := [⟨9,0⟩], op := Op.generic 1 }],
    edges := [{ id := 0, from_ := some ⟨0,0⟩, to_node := some 1, fact := ⟨some (Tensor.i32s [5])⟩ }],
    prev_edges := [[], [0]],
    next_edges := [[0], []] }

/-! ### The adjacency-index invariant of the data model (for C2) -/

/-- Total number of occurrences of edge id `i` over all buckets. -/
def countIn (buckets : List (List Nat)) (i : Nat) : Nat :=
  (buckets.map (fun b => b.count i)).sum

/-- The data-model invariant on the adjacency indexes: the two indexes are
parallel to the node sequence, and every edge id appears in exactly one source
node's outgoing bucket (if a source is set, and in no bucket otherwise) and in
exactly one destination node's incoming bucket (if a destination is set, and
in no bucket otherwise) — namely the bucket of its source (resp. destination)
node. -/
def edgeIndexInv (a : Analyser) : Bool :=
  (a.next_edges.length == a.nodes.length) &&
  (a.prev_edges.length == a.nodes.length) &&
  ((List.range a.edges.length).all (fun i =>
    match a.edges.get? i with
    | none => true
    | some ed =>
      (match ed.from_ with
       | some o => (countIn a.next_edges ed.id == 1) &&
                   ((a.next_edges.getD o.node []).count ed.id == 1)
       | none => countIn a.next_edges ed.id == 0) &&
      (match ed.to_node with
       | some n => (countIn a.prev_edges ed.id == 1) &&
                   ((a.prev_edges.getD n []).count ed.id == 1)
       | none => countIn a.prev_edges ed.id == 0)))

/-! ### Derived notions used in the statements -/

/-- All tagged elements of a component set, in emission order. -/
def allElements : List Component → List Element
  | [] => []
  | c :: rest => c.elements ++ allElements rest

/-- All boundary (output) edge ids of a component set, in emission order; this
is exactly the sequence of edges the rewriter processes. -/
def allOutputsOf : List Component → List Nat
  | [] => []
  | c :: rest => c.outputs ++ allOutputsOf rest

/-- The producing node id an edge currently points at, if any. -/
def fromNode (a : Analyser) (e : Nat) : Option Nat :=
  (a.edges.get? e).bind (fun ed => ed.from_.map (fun o => o.node))

/-- Consistency of the adjacency indexes with the edges' endpoint fields:
every edge id in the outgoing bucket of node `n` denotes an edge whose source
outlet is at node `n`, and every edge id in the incoming bucket of node `n`
denotes an edge whose destination is node `n`. -/
def adjConsistentB (a : Analyser) : Bool :=
  ((List.range a.next_edges.length).all (fun n =>
    (a.next_edges.getD n []).all (fun e =>
      match a.edges.get? e with
      | some ed => match ed.from_ with
                   | some o => o.node == n
                   | none => false
      | none => false))) &&
  ((List.range a.prev_edges.length).all (fun n =>
    (a.prev_edges.getD n []).all (fun e =>
      match a.edges.get? e with
      | some ed => ed.to_node == some n
      | none => false)))

/-- How an edge can end up in a component's `outputs` list: it was reached in
one of the two scan directions from some visited node's adjacency bucket, its
resolved other endpoint (source when scanning incoming, destination when
scanning outgoing) is present, and that endpoint is classified non-constant. -/
def Pout (a : Analyser) (inc : List Bool) (e : Nat) : Prop :=
  (∃ n, e ∈ a.prev_edges.getD n [] ∧
    ∃ t, otherPrev a e = some t ∧ inc.getD t false = false) ∨
  (∃ n, e ∈ a.next_edges.getD n [] ∧
    ∃ t, otherNext a e = some t ∧ inc.getD t false = false)

/-- The frame/dedup invariant of the rewiring loop, relative to the original
graph `a`.  `S` is the set of boundary edges already rewired, `cache` the
dedup cache, `b` the current graph:
* the edge count never changes, the node count never shrinks below the
  original, and original nodes keep their name, operation and id (only their
  input lists may be rewritten);
* edges not yet rewired are untouched, and every rewired edge differs from
  its original only in its source outlet, which points at a node created by
  this pass;
* cache entries point at nodes created by this pass;
* a rewired edge whose original tensor is a 32-bit-integer tensor points at
  the cached node for that content;
* two distinct rewired edges with non-i32 original tensors point at two
  distinct nodes. -/
def Phi (a : Analyser) (S : List Nat) (cache : List (List Int × Nat))
    (b : Analyser) : Prop :=
  b.edges.length = a.edges.length ∧
  a.nodes.length ≤ b.nodes.length ∧
  (∀ idx nOld, a.nodes.get? idx = some nOld → ∃ nNew, b.nodes.get? idx = some nNew ∧
      nNew.name = nOld.name ∧ nNew.op_name = nOld.op_name ∧ nNew.op = nOld.op ∧
      nNew.id = nOld.id) ∧
  (∀ e, e ∉ S → b.edges.get? e = a.edges.get? e) ∧
  (∀ e, e ∈ S → ∃ old k, a.edges.get? e = some old ∧
      b.edges.get? e = some { old with from_ := some (OutletId.new k 0) } ∧
      a.nodes.length ≤ k ∧ k < b.nodes.length) ∧
  (∀ pr, pr ∈ cache → a.nodes.length ≤ pr.2 ∧ pr.2 < b.nodes.length) ∧
  (∀ e, e ∈ S → ∀ old d, a.edges.get? e = some old →
      old.fact.value = some (Tensor.i32s d) →
      ∃ v, lookupCache cache d = some v ∧
        b.edges.get? e = some { old with from_ := some (OutletId.new v 0) }) ∧
  (∀ e1, e1 ∈ S → ∀ e2, e2 ∈ S → e1 ≠ e2 →
      ∀ old1 old2 t1 t2 k1 k2,
        a.edges.get? e1 = some old1 → a.edges.get? e2 = some old2 →
        old1.fact.value = some (Tensor.other t1) →
        old2.fact.value = some (Tensor.other t2) →
        b.edges.get? e1 = some { old1 with from_ := some (OutletId.new k1 0) } →
        b.edges.get? e2 = some { old2 with from_ := some (OutletId.new k2 0) } →
        k1 ≠ k2)

/-! ### C1: a constant edge with an absent endpoint is not recorded as a
boundary output, although the function's own documentation ("If an edge in G
has no target, it is called an output") says it should be. -/

/-- C1: evaluation of the code at the failing input: in `c1_a` the constant
edge `0` has an absent destination and is reached during detection (it is
recorded as an element of the component), yet the component's `outputs` list
is empty — the `target.is_none()` branch of `process_edges!` skips the edge
instead of recording it as a boundary output. -/
theorem c1_code_eval :
    otherNext c1_a 0 = none ∧
    (isEdgeConstL c1_a).getD 0 false = true ∧
    connected_components c1_a =
      [{ elements := [Element.Node 0, Element.Edge 0], outputs := [] }] := by
  decide

/-! ### C2: the adjacency-index invariant is broken by the dedup cache-hit
path, which appends fresh buckets although no fresh node was created. -/

/-- C2: evaluation of the code at the failing input: `c2_a` satisfies the
adjacency-index invariant and its second boundary edge hits the i32 dedup
cache; after a successful fold the invariant is violated (the indexes are no
longer parallel to the node sequence, and the rewired edge's id sits in a
bucket that belongs to no node rather than in its source's bucket). -/
theorem c2_code_eval :
    edgeIndexInv c2_a = true ∧
    propagate_constants c2_a = FoldOutcome.ok (foldOk c2_a) ∧
    edgeIndexInv (foldOk c2_a) = false ∧
    (foldOk c2_a).next_edges.length = (foldOk c2_a).nodes.length + 1 := by
  decide

/-! ### C3: folding is not idempotent: a rewired boundary edge is still a
boundary edge, so a second fold rewires it again onto a fresh constant node. -/

/-- C3 counterexample: on `c3_a` the first fold succeeds, and the second fold,
invoked immediately after, performs further rewiring: it creates one more
node and changes the graph. -/
theorem c3_counterexample :
    propagate_constants c3_a = FoldOutcome.ok (foldOk c3_a) ∧
    propagate_constants (foldOk c3_a) = FoldOutcome.ok (foldOk (foldOk c3_a)) ∧
    foldOk (foldOk c3_a) ≠ foldOk c3_a ∧
    (foldOk (foldOk c3_a)).nodes.length = (foldOk c3_a).nodes.length + 1 := by
  decide

/-! ### C4: a boundary edge discovered while scanning a constant node's
incoming bucket can have a constant consumer. -/

/-- C4 counterexample: in `c4_a`, edge `0` is recorded as a boundary output
(it is reached from the constant node `1` through the incoming scan, and its
resolved other endpoint — its source node `0` — is non-constant), yet its
consumer `to_node = 1` is classified constant. -/
theorem c4_counterexample :
    (connected_components c4_a).any (fun c => c.outputs.contains 0) = true ∧
    otherNext c4_a 0 = some 1 ∧
    (isNodeConstL c4_a).getD 1 false = true := by
  decide

/-! ### C5: invariant violations make the rewiter panic (`unwrap` on `None`);
no structural error is returned as the result value. -/

/-- C5 counterexample: `c5_a` violates the rewiring invariant (the destination
node's input list has no entry referencing the old source node), and the fold
aborts by panic — the result value is not a structural error. -/
theorem c5_counterexample :
    propagate_constants c5_a = FoldOutcome.panic ∧
    (propagate_constants c5_a).isStructErr = false := by
  decide

/-- Helper: a fold pass over components with no boundary outputs leaves the
state untouched. -/
theorem foldComponents_no_outputs (cs : List Component)
    (st : List (List Int × Nat) × Analyser) (h : ∀ c ∈ cs, c.outputs = []) :
    foldComponents cs st = some st := by
  induction cs with
  | nil => rfl
  | cons c rest ih =>
    have hc : c.outputs = [] := h c (by simp)
    have hrest : ∀ c' ∈ rest, c'.outputs = [] := fun c' hc' => h c' (by simp [hc'])
    simp [foldComponents, hc, foldOutputs, ih hrest]

/-- C5 amended: `propagate_constants` never returns a structural error as its
result value: every invocation either succeeds or aborts by panic (a failed
`unwrap`). -/
theorem c5_amended (a : Analyser) :
    (∃ b, propagate_constants a = FoldOutcome.ok b) ∨
    propagate_constants a = FoldOutcome.panic := by
  unfold propagate_constants
  cases h : foldComponents (connected_components a) ([], a) with
  | none => right; simp [h]
  | some st => left; exact ⟨st.2, by simp [h]⟩

/-- C3 amended: a second fold performs zero rewiring only in the degenerate
case that detection finds no boundary edge at all; then the fold returns the
graph unchanged (so the fold after it does nothing as well). -/
theorem c3_amended (a : Analyser)
    (h : ∀ c ∈ connected_components a, c.outputs = []) :
    propagate_constants a = FoldOutcome.ok a := by
  unfold propagate_constants
  simp [foldComponents_no_outputs _ _ h]

/-- C3 amended, witness: the empty graph has no boundary edges and folding it
returns it unchanged. -/
theorem c3_amended_witness :
    (∀ c ∈ connected_components (Analyser.mk [] [] [] []), c.outputs = []) ∧
    propagate_constants (Analyser.mk [] [] [] []) =
      FoldOutcome.ok (Analyser.mk [] [] [] []) :=
  ⟨by decide, c3_amended _ (by decide)⟩

/-! ### Small helpers about `List.getD` on coloring vectors -/

/-- Reading a set index in range. -/
theorem getD_set_self (l : List Bool) (i : Nat) (b : Bool) (h : i < l.length) :
    (l.set i b).getD i false = b := by
  rw [List.getD_eq_get?, List.get?_set_eq]
  rw [List.get?_eq_get h]
  rfl

/-- Reading another index after a set. -/
theorem getD_set_other (l : List Bool) (i j : Nat) (b : Bool) (h : i ≠ j) :
    (l.set i b).getD j false = l.getD j false := by
  rw [List.getD_eq_get?, List.get?_set_ne _ _ h, ← List.getD_eq_get?]

/-- Setting an index to `true` never turns a `true` reading to `false`. -/
theorem getD_set_mono (l : List Bool) (i j : Nat) (h : l.getD j false = true) :
    (l.set i true).getD j false = true := by
  by_cases hij : i = j
  · subst hij
    by_cases hlt : i < l.length
    · exact getD_set_self l i true hlt
    · rw [List.set_eq_of_length_le (Nat.le_of_not_lt hlt)]; exact h
  · rw [getD_set_other l i j true hij]; exact h

/-- A `true` reading is in range. -/
theorem getD_true_lt (l : List Bool) (i : Nat) (h : l.getD i false = true) :
    i < l.length := by
  by_cases hlt : i < l.length
  · exact hlt
  · rw [List.getD_eq_get?, List.get?_len_le (Nat.le_of_not_lt hlt)] at h
    simp at h

/-- The all-`false` vector reads `false` everywhere. -/
theorem getD_replicate_false (n i : Nat) :
    (List.replicate n false).getD i false = false := by
  induction n generalizing i with
  | zero => rfl
  | succ m ih =>
    cases i with
    | zero => rfl
    | succ j => simpa [List.replicate] using ih j

/-! ### A recursion principle for `processEdges` -/

/-- Master preservation lemma for `processEdges`: any property of the scan
state that is stable under the three kinds of step (edge with absent other
endpoint, boundary edge, interior edge pushing its endpoint) holds of the
result. -/
theorem processEdges_rec (iec inc : List Bool) (oth : Nat → Option Nat)
    (bucket : List Nat) (P : EScan → Prop)
    (step_none : ∀ s e, e ∈ bucket → iec.getD e false = true →
      s.ec.getD e false = false → oth e = none → P s →
      P { s with ec := s.ec.set e true, elems := s.elems ++ [Element.Edge e] })
    (step_out : ∀ s e t, e ∈ bucket → iec.getD e false = true →
      s.ec.getD e false = false → oth e = some t → inc.getD t false = false → P s →
      P { ec := s.ec.set e true, elems := s.elems ++ [Element.Edge e],
          outs := s.outs ++ [e], stack := s.stack })
    (step_push : ∀ s e t, e ∈ bucket → iec.getD e false = true →
      s.ec.getD e false = false → oth e = some t → inc.getD t false = true → P s →
      P { ec := s.ec.set e true, elems := s.elems ++ [Element.Edge e],
          outs := s.outs, stack := t :: s.stack }) :
    ∀ s, P s → P (processEdges iec inc oth bucket s) := by
  induction bucket with
  | nil => intro s hP; exact hP
  | cons edge rest ih =>
    intro s hP
    have hmem : edge ∈ edge :: rest := by simp
    have step_none' : ∀ s e, e ∈ rest → iec.getD e false = true →
        s.ec.getD e false = false → oth e = none → P s →
        P { s with ec := s.ec.set e true, elems := s.elems ++ [Element.Edge e] } :=
      fun s e he => step_none s e (by simp [he])
    have step_out' : ∀ s e t, e ∈ rest → iec.getD e false = true →
        s.ec.getD e false = false → oth e = some t → inc.getD t false = false → P s →
        P { ec := s.ec.set e true, elems := s.elems ++ [Element.Edge e],
            outs := s.outs ++ [e], stack := s.stack } :=
      fun s e t he => step_out s e t (by simp [he])
    have step_push' : ∀ s e t, e ∈ rest → iec.getD e false = true →
        s.ec.getD e false = false → oth e = some t → inc.getD t false = true → P s →
        P { ec := s.ec.set e true, elems := s.elems ++ [Element.Edge e],
            outs := s.outs, stack := t :: s.stack } :=
      fun s e t he => step_push s e t (by simp [he])
    unfold processEdges
    by_cases hc : iec.getD edge false = true ∧ s.ec.getD edge false = false
    · rw [if_pos hc]
      cases ho : oth edge with
      | none =>
        exact ih step_none' step_out' step_push' _
          (step_none s edge hmem hc.1 hc.2 ho hP)
      | some t =>
        show P (if inc.getD t false = false
          then processEdges iec inc oth rest
            { ec := s.ec.set edge true, elems := s.elems ++ [Element.Edge edge],
              outs := s.outs ++ [edge], stack := s.stack }
          else processEdges iec inc oth rest
            { ec := s.ec.set edge true, elems := s.elems ++ [Element.Edge edge],
              outs := s.outs, stack := t :: s.stack })
        by_cases ht : inc.getD t false = false
        · rw [if_pos ht]
          exact ih step_none' step_out' step_push' _
            (step_out s edge t hmem hc.1 hc.2 ho ht hP)
        · rw [if_neg ht]
          have ht' : inc.getD t false = true := by
            cases h : inc.getD t false
            · exact absurd h ht
            · rfl
          exact ih step_none' step_out' step_push' _
            (step_push s edge t hmem hc.1 hc.2 ho ht' hP)
    · rw [if_neg hc]
      exact ih step_none' step_out' step_push' s hP

/-- Shape of one adjacency scan: the coloring keeps its length, elements and
outputs only grow (new elements are edges), stack entries are either old or
constant nodes, and edge coloring is monotone. -/
theorem processEdges_shape (iec inc : List Bool) (oth : Nat → Option Nat)
    (bucket : List Nat) (s0 : EScan) :
    (processEdges iec inc oth bucket s0).ec.length = s0.ec.length ∧
    (∃ l, (processEdges iec inc oth bucket s0).elems = s0.elems ++ l ∧
      ∀ x ∈ l, ∃ e, x = Element.Edge e) ∧
    (∃ l, (processEdges iec inc oth bucket s0).outs = s0.outs ++ l) ∧
    (∀ t ∈ (processEdges iec inc oth bucket s0).stack,
      t ∈ s0.stack ∨ inc.getD t false = true) ∧
    (∀ e, s0.ec.getD e false = true →
      (processEdges iec inc oth bucket s0).ec.getD e false = true) := by
  refine processEdges_rec iec inc oth bucket
    (fun s => s.ec.length = s0.ec.length ∧
      (∃ l, s.elems = s0.elems ++ l ∧ ∀ x ∈ l, ∃ e, x = Element.Edge e) ∧
      (∃ l, s.outs = s0.outs ++ l) ∧
      (∀ t ∈ s.stack, t ∈ s0.stack ∨ inc.getD t false = true) ∧
      (∀ e, s0.ec.getD e false = true → s.ec.getD e false = true))
    ?_ ?_ ?_ s0
    ⟨rfl, ⟨[], by simp⟩, ⟨[], by simp⟩, fun t ht => Or.inl ht, fun _ h => h⟩
  · intro s e _ _ _ _ hP
    obtain ⟨h1, ⟨l1, hl1, hall⟩, ⟨l2, hl2⟩, hstk, hmono⟩ := hP
    refine ⟨by simp [List.length_set, h1],
      ⟨l1 ++ [Element.Edge e], by simp [hl1], ?_⟩, ⟨l2, by simp [hl2]⟩, hstk,
      fun e' h' => getD_set_mono _ _ _ (hmono e' h')⟩
    intro x hx
    rcases List.mem_append.mp hx with hx | hx
    · exact hall x hx
    · exact ⟨e, by simpa using hx⟩
  · intro s e t _ _ _ _ _ hP
    obtain ⟨h1, ⟨l1, hl1, hall⟩, ⟨l2, hl2⟩, hstk, hmono⟩ := hP
    refine ⟨by simp [List.length_set, h1],
      ⟨l1 ++ [Element.Edge e], by simp [hl1], ?_⟩, ⟨l2 ++ [e], by simp [hl2]⟩, hstk,
      fun e' h' => getD_set_mono _ _ _ (hmono e' h')⟩
    intro x hx
    rcases List.mem_append.mp hx with hx | hx
    · exact hall x hx
    · exact ⟨e, by simpa using hx⟩
  · intro s e t _ _ _ _ ht hP
    obtain ⟨h1, ⟨l1, hl1, hall⟩, ⟨l2, hl2⟩, hstk, hmono⟩ := hP
    refine ⟨by simp [List.length_set, h1],
      ⟨l1 ++ [Element.Edge e], by simp [hl1], ?_⟩, ⟨l2, by simp [hl2]⟩, ?_,
      fun e' h' => getD_set_mono _ _ _ (hmono e' h')⟩
    · intro x hx
      rcases List.mem_append.mp hx with hx | hx
      · exact hall x hx
      · exact ⟨e, by simpa using hx⟩
    · intro u hu
      rcases List.mem_cons.mp hu with hu | hu
      · right; rw [hu]; exact ht
      · exact hstk u hu

/-- One-step unfolding of `dfs` when the popped node is constant and
uncolored. -/
theorem dfs_cons_pos (a : Analyser) (iec inc : List Bool) (fuel node : Nat)
    (stack : List Nat) (s : NScan)
    (hg : inc.getD node false = true ∧ s.nc.getD node false = false) :
    dfs a iec inc (fuel + 1) (node :: stack) s =
      (fun s2 => dfs a iec inc fuel s2.stack
        { nc := s.nc.set node true, ec := s2.ec, elems := s2.elems, outs := s2.outs })
      (processEdges iec inc (otherNext a) (a.next_edges.getD node [])
        (processEdges iec inc (otherPrev a) (a.prev_edges.getD node [])
          { ec := s.ec, elems := s.elems ++ [Element.Node node], outs := s.outs,
            stack := stack })) := by
  simp only [dfs]
  rw [if_pos hg]

/-- One-step unfolding of `dfs` when the popped node is skipped. -/
theorem dfs_cons_neg (a : Analyser) (iec inc : List Bool) (fuel node : Nat)
    (stack : List Nat) (s : NScan)
    (hg : ¬(inc.getD node false = true ∧ s.nc.getD node false = false)) :
    dfs a iec inc (fuel + 1) (node :: stack) s = dfs a iec inc fuel stack s := by
  simp only [dfs]
  rw [if_neg hg]

/-- Shape of the depth-first traversal: both colorings keep their lengths and
are monotone, and elements and outputs only grow. -/
theorem dfs_shape (a : Analyser) (iec inc : List Bool) :
    ∀ (fuel : Nat) (stack : List Nat) (s0 : NScan),
    (dfs a iec inc fuel stack s0).nc.length = s0.nc.length ∧
    (dfs a iec inc fuel stack s0).ec.length = s0.ec.length ∧
    (∃ l, (dfs a iec inc fuel stack s0).elems = s0.elems ++ l) ∧
    (∃ l, (dfs a iec inc fuel stack s0).outs = s0.outs ++ l) ∧
    (∀ n, s0.nc.getD n false = true →
      (dfs a iec inc fuel stack s0).nc.getD n false = true) ∧
    (∀ e, s0.ec.getD e false = true →
      (dfs a iec inc fuel stack s0).ec.getD e false = true) := by
  intro fuel
  induction fuel with
  | zero =>
    intro stack s0
    exact ⟨rfl, rfl, ⟨[], by simp [dfs]⟩, ⟨[], by simp [dfs]⟩, fun _ h => h, fun _ h => h⟩
  | succ fuel ih =>
    intro stack s0
    cases stack with
    | nil =>
      exact ⟨rfl, rfl, ⟨[], by simp [dfs]⟩, ⟨[], by simp [dfs]⟩, fun _ h => h, fun _ h => h⟩
    | cons node rest =>
      by_cases hg : inc.getD node false = true ∧ s0.nc.getD node false = false
      · rw [dfs_cons_pos a iec inc fuel node rest s0 hg]
        obtain ⟨hl1, ⟨e1, he1, _⟩, ⟨o1, ho1⟩, _, hm1⟩ :=
          processEdges_shape iec inc (otherPrev a) (a.prev_edges.getD node [])
            { ec := s0.ec, elems := s0.elems ++ [Element.Node node], outs := s0.outs,
              stack := rest }
        obtain ⟨hl2, ⟨e2, he2, _⟩, ⟨o2, ho2⟩, _, hm2⟩ :=
          processEdges_shape iec inc (otherNext a) (a.next_edges.getD node [])
            (processEdges iec inc (otherPrev a) (a.prev_edges.getD node [])
              { ec := s0.ec, elems := s0.elems ++ [Element.Node node], outs := s0.outs,
                stack := rest })
        obtain ⟨rl1, rl2, ⟨e3, he3⟩, ⟨o3, ho3⟩, rm1, rm2⟩ := ih _ _
        refine ⟨?_, ?_, ?_, ?_, ?_, ?_⟩
        · rw [rl1]; exact List.length_set _ _ _
        · rw [rl2]; exact hl2.trans hl1
        · refine ⟨Element.Node node :: (e1 ++ e2 ++ e3), ?_⟩
          rw [he3]
          show (processEdges iec inc (otherNext a) (a.next_edges.getD node [])
            (processEdges iec inc (otherPrev a) (a.prev_edges.getD node [])
              { ec := s0.ec, elems := s0.elems ++ [Element.Node node], outs := s0.outs,
                stack := rest })).elems ++ e3 = _
          rw [he2, he1]
          simp
        · refine ⟨o1 ++ o2 ++ o3, ?_⟩
          rw [ho3]
          show (processEdges iec inc (otherNext a) (a.next_edges.getD node [])
            (processEdges iec inc (otherPrev a) (a.prev_edges.getD node [])
              { ec := s0.ec, elems := s0.elems ++ [Element.Node node], outs := s0.outs,
                stack := rest })).outs ++ o3 = _
          rw [ho2, ho1]
          simp
        · intro n hn
          exact rm1 n (getD_set_mono _ _ _ hn)
        · intro e he
          exact rm2 e (hm2 e (hm1 e he))
      · rw [dfs_cons_neg a iec inc fuel node rest s0 hg]
        exact ih rest s0

/-- Case analysis for reading after a set-to-true. -/
theorem getD_set_true_cases (l : List Bool) (i j : Nat)
    (h : (l.set i true).getD j false = true) :
    j = i ∨ l.getD j false = true := by
  by_cases hij : j = i
  · exact Or.inl hij
  · right; rw [getD_set_other l i j true (fun hh => hij hh.symm)] at h; exact h

/-- `allElements` distributes over append. -/
theorem allElements_append (xs ys : List Component) :
    allElements (xs ++ ys) = allElements xs ++ allElements ys := by
  induction xs with
  | nil => rfl
  | cons c rest ih => simp [allElements, ih]

/-- `allOutputsOf` distributes over append. -/
theorem allOutputsOf_append (xs ys : List Component) :
    allOutputsOf (xs ++ ys) = allOutputsOf xs ++ allOutputsOf ys := by
  induction xs with
  | nil => rfl
  | cons c rest ih => simp [allOutputsOf, ih]

/-- Membership in `allElements`. -/
theorem mem_allElements (cs : List Component) (x : Element) :
    x ∈ allElements cs ↔ ∃ c, c ∈ cs ∧ x ∈ c.elements := by
  induction cs with
  | nil => simp [allElements]
  | cons c rest ih =>
    simp only [allElements, List.mem_append, ih, List.mem_cons]
    constructor
    · rintro (h | ⟨c', hc', hx⟩)
      · exact ⟨c, Or.inl rfl, h⟩
      · exact ⟨c', Or.inr hc', hx⟩
    · rintro ⟨c', (rfl | hc'), hx⟩
      · exact Or.inl hx
      · exact Or.inr ⟨c', hc', hx⟩

/-- Membership in `allOutputsOf`. -/
theorem mem_allOutputsOf (cs : List Component) (e : Nat) :
    e ∈ allOutputsOf cs ↔ ∃ c, c ∈ cs ∧ e ∈ c.outputs := by
  induction cs with
  | nil => simp [allOutputsOf]
  | cons c rest ih =>
    simp only [allOutputsOf, List.mem_append, ih, List.mem_cons]
    constructor
    · rintro (h | ⟨c', hc', hx⟩)
      · exact ⟨c, Or.inl rfl, h⟩
      · exact ⟨c', Or.inr hc', hx⟩
    · rintro ⟨c', (rfl | hc'), hx⟩
      · exact Or.inl hx
      · exact Or.inr ⟨c', hc', hx⟩

/-- Record/color synchronisation for nodes along the traversal: a node is
colored exactly when its element has been recorded, and every recorded node is
classified constant.  `pre` stands for the elements recorded in previously
emitted components. -/
theorem dfs_psiC (a : Analyser) (iec inc : List Bool) :
    ∀ (fuel : Nat) (stack : List Nat) (s : NScan) (pre : List Element),
    (∀ n, s.nc.getD n false = true → Element.Node n ∈ pre ++ s.elems) →
    (∀ n, Element.Node n ∈ pre ++ s.elems → inc.getD n false = true) →
    (∀ n, (dfs a iec inc fuel stack s).nc.getD n false = true →
      Element.Node n ∈ pre ++ (dfs a iec inc fuel stack s).elems) ∧
    (∀ n, Element.Node n ∈ pre ++ (dfs a iec inc fuel stack s).elems →
      inc.getD n false = true) := by
  intro fuel
  induction fuel with
  | zero => intro stack s pre h1 h2; exact ⟨h1, h2⟩
  | succ fuel ih =>
    intro stack s pre h1 h2
    cases stack with
    | nil => exact ⟨h1, h2⟩
    | cons node rest =>
      by_cases hg : inc.getD node false = true ∧ s.nc.getD node false = false
      · rw [dfs_cons_pos a iec inc fuel node rest s hg]
        obtain ⟨_, ⟨e1, he1, hall1⟩, _, _, _⟩ :=
          processEdges_shape iec inc (otherPrev a) (a.prev_edges.getD node [])
            { ec := s.ec, elems := s.elems ++ [Element.Node node], outs := s.outs,
              stack := rest }
        obtain ⟨_, ⟨e2, he2, hall2⟩, _, _, _⟩ :=
          processEdges_shape iec inc (otherNext a) (a.next_edges.getD node [])
            (processEdges iec inc (otherPrev a) (a.prev_edges.getD node [])
              { ec := s.ec, elems := s.elems ++ [Element.Node node], outs := s.outs,
                stack := rest })
        refine ih _ _ pre ?_ ?_
        · intro n hn
          show Element.Node n ∈ pre ++ (processEdges iec inc (otherNext a)
            (a.next_edges.getD node [])
            (processEdges iec inc (otherPrev a) (a.prev_edges.getD node [])
              { ec := s.ec, elems := s.elems ++ [Element.Node node], outs := s.outs,
                stack := rest })).elems
          rw [he2, he1]
          rcases getD_set_true_cases s.nc node n hn with rfl | hn'
          · simp
          · have hmem := h1 n hn'
            simp only [List.append_assoc, List.mem_append] at hmem ⊢
            tauto
        · intro n hn
          have hx : Element.Node n ∈ pre ++ (((s.elems ++ [Element.Node node]) ++ e1) ++ e2) := by
            have hy : Element.Node n ∈ pre ++ (processEdges iec inc (otherNext a)
              (a.next_edges.getD node [])
              (processEdges iec inc (otherPrev a) (a.prev_edges.getD node [])
                { ec := s.ec, elems := s.elems ++ [Element.Node node], outs := s.outs,
                  stack := rest })).elems := hn
            rw [he2, he1] at hy
            exact hy
          simp only [List.append_assoc, List.mem_append] at hx
          rcases hx with h | h | h | h | h
          · exact h2 n (List.mem_append.mpr (Or.inl h))
          · exact h2 n (List.mem_append.mpr (Or.inr h))
          · have : Element.Node n = Element.Node node := by simpa using h
            cases this; exact hg.1
          · obtain ⟨e, he⟩ := hall1 _ h
            cases he
          · obtain ⟨e, he⟩ := hall2 _ h
            cases he
      · rw [dfs_cons_neg a iec inc fuel node rest s hg]
        exact ih rest s pre h1 h2

/-- When the traversal starts at a constant uncolored node, that node is
recorded in the component under construction. -/
theorem dfs_first (a : Analyser) (iec inc : List Bool) (fuel node : Nat)
    (stack : List Nat) (s : NScan)
    (hg : inc.getD node false = true ∧ s.nc.getD node false = false) :
    Element.Node node ∈ (dfs a iec inc (fuel + 1) (node :: stack) s).elems := by
  rw [dfs_cons_pos a iec inc fuel node stack s hg]
  obtain ⟨_, ⟨e1, he1, _⟩, _, _, _⟩ :=
    processEdges_shape iec inc (otherPrev a) (a.prev_edges.getD node [])
      { ec := s.ec, elems := s.elems ++ [Element.Node node], outs := s.outs,
        stack := stack }
  obtain ⟨_, ⟨e2, he2, _⟩, _, _, _⟩ :=
    processEdges_shape iec inc (otherNext a) (a.next_edges.getD node [])
      (processEdges iec inc (otherPrev a) (a.prev_edges.getD node [])
        { ec := s.ec, elems := s.elems ++ [Element.Node node], outs := s.outs,
          stack := stack })
  obtain ⟨_, _, ⟨e3, he3⟩, _, _, _⟩ := dfs_shape a iec inc fuel
    (processEdges iec inc (otherNext a) (a.next_edges.getD node [])
      (processEdges iec inc (otherPrev a) (a.prev_edges.getD node [])
        { ec := s.ec, elems := s.elems ++ [Element.Node node], outs := s.outs,
          stack := stack })).stack
    { nc := s.nc.set node true,
      ec := (processEdges iec inc (otherNext a) (a.next_edges.getD node [])
        (processEdges iec inc (otherPrev a) (a.prev_edges.getD node [])
          { ec := s.ec, elems := s.elems ++ [Element.Node node], outs := s.outs,
            stack := stack })).ec,
      elems := (processEdges iec inc (otherNext a) (a.next_edges.getD node [])
        (processEdges iec inc (otherPrev a) (a.prev_edges.getD node [])
          { ec := s.ec, elems := s.elems ++ [Element.Node node], outs := s.outs,
            stack := stack })).elems,
      outs := (processEdges iec inc (otherNext a) (a.next_edges.getD node [])
        (processEdges iec inc (otherPrev a) (a.prev_edges.getD node [])
          { ec := s.ec, elems := s.elems ++ [Element.Node node], outs := s.outs,
            stack := stack })).outs }
  rw [he3]
  show Element.Node node ∈ (processEdges iec inc (otherNext a)
    (a.next_edges.getD node [])
    (processEdges iec inc (otherPrev a) (a.prev_edges.getD node [])
      { ec := s.ec, elems := s.elems ++ [Element.Node node], outs := s.outs,
        stack := stack })).elems ++ e3
  rw [he2, he1]
  simp

/-- Shape of the outer loop: components are only appended, colorings keep
their lengths and are monotone. -/
theorem ccLoop_shape (a : Analyser) (iec inc : List Bool) :
    ∀ (ns : List Nat) (st : CCSt),
    (∃ l, (ccLoop a iec inc ns st).comps = st.comps ++ l) ∧
    (∀ n, st.nc.getD n false = true →
      (ccLoop a iec inc ns st).nc.getD n false = true) ∧
    (∀ e, st.ec.getD e false = true →
      (ccLoop a iec inc ns st).ec.getD e false = true) ∧
    (ccLoop a iec inc ns st).nc.length = st.nc.length ∧
    (ccLoop a iec inc ns st).ec.length = st.ec.length := by
  intro ns
  induction ns with
  | nil =>
    intro st
    exact ⟨⟨[], by simp [ccLoop]⟩, fun _ h => h, fun _ h => h, rfl, rfl⟩
  | cons node rest ih =>
    intro st
    by_cases hg : inc.getD node false = true ∧ st.nc.getD node false = false
    · have heq : ccLoop a iec inc (node :: rest) st =
        ccLoop a iec inc rest
          { nc := (dfs a iec inc (a.edges.length + 1) [node]
              { nc := st.nc, ec := st.ec, elems := [], outs := [] }).nc,
            ec := (dfs a iec inc (a.edges.length + 1) [node]
              { nc := st.nc, ec := st.ec, elems := [], outs := [] }).ec,
            comps := st.comps ++ [⟨(dfs a iec inc (a.edges.length + 1) [node]
              { nc := st.nc, ec := st.ec, elems := [], outs := [] }).elems,
              (dfs a iec inc (a.edges.length + 1) [node]
              { nc := st.nc, ec := st.ec, elems := [], outs := [] }).outs⟩] } := by
        simp only [ccLoop]
        rw [if_pos hg]
      rw [heq]
      obtain ⟨hn1, hn2, ⟨e3, _⟩, ⟨o3, _⟩, hmn, hme⟩ := dfs_shape a iec inc
        (a.edges.length + 1) [node] { nc := st.nc, ec := st.ec, elems := [], outs := [] }
      obtain ⟨⟨l, hl⟩, hm1, hm2, hlen1, hlen2⟩ := ih _
      refine ⟨⟨⟨(dfs a iec inc (a.edges.length + 1) [node]
          { nc := st.nc, ec := st.ec, elems := [], outs := [] }).elems,
          (dfs a iec inc (a.edges.length + 1) [node]
          { nc := st.nc, ec := st.ec, elems := [], outs := [] }).outs⟩ :: l,
          by rw [hl]; simp⟩, ?_, ?_, ?_, ?_⟩
      · intro n h; exact hm1 n (hmn n h)
      · intro e h; exact hm2 e (hme e h)
      · rw [hlen1]; exact hn1
      · rw [hlen2]; exact hn2
    · have heq : ccLoop a iec inc (node :: rest) st = ccLoop a iec inc rest st := by
        simp only [ccLoop]
        rw [if_neg hg]
      rw [heq]
      exact ih st

/-- Record/color synchronisation for nodes over the outer loop. -/
theorem ccLoop_psiC (a : Analyser) (iec inc : List Bool) :
    ∀ (ns : List Nat) (st : CCSt),
    (∀ n, st.nc.getD n false = true → Element.Node n ∈ allElements st.comps) →
    (∀ n, Element.Node n ∈ allElements st.comps → inc.getD n false = true) →
    (∀ n, (ccLoop a iec inc ns st).nc.getD n false = true →
      Element.Node n ∈ allElements (ccLoop a iec inc ns st).comps) ∧
    (∀ n, Element.Node n ∈ allElements (ccLoop a iec inc ns st).comps →
      inc.getD n false = true) := by
  intro ns
  induction ns with
  | nil => intro st h1 h2; exact ⟨h1, h2⟩
  | cons node rest ih =>
    intro st h1 h2
    by_cases hg : inc.getD node false = true ∧ st.nc.getD node false = false
    · have heq : ccLoop a iec inc (node :: rest) st =
        ccLoop a iec inc rest
          { nc := (dfs a iec inc (a.edges.length + 1) [node]
              { nc := st.nc, ec := st.ec, elems := [], outs := [] }).nc,
            ec := (dfs a iec inc (a.edges.length + 1) [node]
              { nc := st.nc, ec := st.ec, elems := [], outs := [] }).ec,
            comps := st.comps ++ [⟨(dfs a iec inc (a.edges.length + 1) [node]
              { nc := st.nc, ec := st.ec, elems := [], outs := [] }).elems,
              (dfs a iec inc (a.edges.length + 1) [node]
              { nc := st.nc, ec := st.ec, elems := [], outs := [] }).outs⟩] } := by
        simp only [ccLoop]
        rw [if_pos hg]
      rw [heq]
      have hpre1 : ∀ n, ({ nc := st.nc, ec := st.ec, elems := [], outs := [] } :
          NScan).nc.getD n false = true →
          Element.Node n ∈ allElements st.comps ++
            ({ nc := st.nc, ec := st.ec, elems := [], outs := [] } : NScan).elems := by
        intro n hn
        simpa using h1 n hn
      have hpre2 : ∀ n, Element.Node n ∈ allElements st.comps ++
          ({ nc := st.nc, ec := st.ec, elems := [], outs := [] } : NScan).elems →
          inc.getD n false = true := by
        intro n hn
        exact h2 n (by simpa using hn)
      obtain ⟨hd1, hd2⟩ := dfs_psiC a iec inc (a.edges.length + 1) [node]
        { nc := st.nc, ec := st.ec, elems := [], outs := [] } (allElements st.comps)
        hpre1 hpre2
      refine ih _ ?_ ?_
      · intro n hn
        have := hd1 n hn
        rw [allElements_append]
        simpa [allElements] using this
      · intro n hn
        refine hd2 n ?_
        rw [allElements_append] at hn
        simpa [allElements] using hn
    · have heq : ccLoop a iec inc (node :: rest) st = ccLoop a iec inc rest st := by
        simp only [ccLoop]
        rw [if_neg hg]
      rw [heq]
      exact ih st h1 h2

/-- Every constant node in the iteration list ends up recorded in some
component. -/
theorem ccLoop_cover (a : Analyser) (iec inc : List Bool) :
    ∀ (ns : List Nat) (st : CCSt),
    (∀ n, st.nc.getD n false = true → Element.Node n ∈ allElements st.comps) →
    (∀ n, Element.Node n ∈ allElements st.comps → inc.getD n false = true) →
    ∀ n, n ∈ ns → inc.getD n false = true →
    Element.Node n ∈ allElements (ccLoop a iec inc ns st).comps := by
  intro ns
  induction ns with
  | nil => intro st _ _ n hmem _; cases hmem
  | cons node rest ih =>
    intro st h1 h2 n hmem hc
    by_cases hg : inc.getD node false = true ∧ st.nc.getD node false = false
    · have heq : ccLoop a iec inc (node :: rest) st =
        ccLoop a iec inc rest
          { nc := (dfs a iec inc (a.edges.length + 1) [node]
              { nc := st.nc, ec := st.ec, elems := [], outs := [] }).nc,
            ec := (dfs a iec inc (a.edges.length + 1) [node]
              { nc := st.nc, ec := st.ec, elems := [], outs := [] }).ec,
            comps := st.comps ++ [⟨(dfs a iec inc (a.edges.length + 1) [node]
              { nc := st.nc, ec := st.ec, elems := [], outs := [] }).elems,
              (dfs a iec inc (a.edges.length + 1) [node]
              { nc := st.nc, ec := st.ec, elems := [], outs := [] }).outs⟩] } := by
        simp only [ccLoop]
        rw [if_pos hg]
      rw [heq]
      have hpre1 : ∀ m, ({ nc := st.nc, ec := st.ec, elems := [], outs := [] } :
          NScan).nc.getD m false = true →
          Element.Node m ∈ allElements st.comps ++
            ({ nc := st.nc, ec := st.ec, elems := [], outs := [] } : NScan).elems := by
        intro m hm
        simpa using h1 m hm
      have hpre2 : ∀ m, Element.Node m ∈ allElements st.comps ++
          ({ nc := st.nc, ec := st.ec, elems := [], outs := [] } : NScan).elems →
          inc.getD m false = true := by
        intro m hm
        exact h2 m (by simpa using hm)
      obtain ⟨hd1, hd2⟩ := dfs_psiC a iec inc (a.edges.length + 1) [node]
        { nc := st.nc, ec := st.ec, elems := [], outs := [] } (allElements st.comps)
        hpre1 hpre2
      have hst1 : ∀ m, (dfs a iec inc (a.edges.length + 1) [node]
          { nc := st.nc, ec := st.ec, elems := [], outs := [] }).nc.getD m false = true →
          Element.Node m ∈ allElements (st.comps ++
            [⟨(dfs a iec inc (a.edges.length + 1) [node]
              { nc := st.nc, ec := st.ec, elems := [], outs := [] }).elems,
              (dfs a iec inc (a.edges.length + 1) [node]
              { nc := st.nc, ec := st.ec, elems := [], outs := [] }).outs⟩]) := by
        intro m hm
        have := hd1 m hm
        rw [allElements_append]
        simpa [allElements] using this
      have hst2 : ∀ m, Element.Node m ∈ allElements (st.comps ++
            [⟨(dfs a iec inc (a.edges.length + 1) [node]
              { nc := st.nc, ec := st.ec, elems := [], outs := [] }).elems,
              (dfs a iec inc (a.edges.length + 1) [node]
              { nc := st.nc, ec := st.ec, elems := [], outs := [] }).outs⟩]) →
          inc.getD m false = true := by
        intro m hm
        refine hd2 m ?_
        rw [allElements_append] at hm
        simpa [allElements] using hm
      rcases List.mem_cons.mp hmem with rfl | hrest
      · -- the node itself: it is recorded by its own traversal
        have hrec : Element.Node n ∈ (dfs a iec inc (a.edges.length + 1) [n]
            { nc := st.nc, ec := st.ec, elems := [], outs := [] }).elems :=
          dfs_first a iec inc a.edges.length n []
            { nc := st.nc, ec := st.ec, elems := [], outs := [] } hg
        have hmem2 : Element.Node n ∈ allElements (st.comps ++
            [⟨(dfs a iec inc (a.edges.length + 1) [n]
              { nc := st.nc, ec := st.ec, elems := [], outs := [] }).elems,
              (dfs a iec inc (a.edges.length + 1) [n]
              { nc := st.nc, ec := st.ec, elems := [], outs := [] }).outs⟩]) := by
          rw [allElements_append]
          simp only [allElements, List.mem_append]
          right
          simpa using hrec
        obtain ⟨⟨l, hl⟩, _, _, _, _⟩ := ccLoop_shape a iec inc rest
          { nc := (dfs a iec inc (a.edges.length + 1) [n]
              { nc := st.nc, ec := st.ec, elems := [], outs := [] }).nc,
            ec := (dfs a iec inc (a.edges.length + 1) [n]
              { nc := st.nc, ec := st.ec, elems := [], outs := [] }).ec,
            comps := st.comps ++ [⟨(dfs a iec inc (a.edges.length + 1) [n]
              { nc := st.nc, ec := st.ec, elems := [], outs := [] }).elems,
              (dfs a iec inc (a.edges.length + 1) [n]
              { nc := st.nc, ec := st.ec, elems := [], outs := [] }).outs⟩] }
        rw [hl, allElements_append]
        exact List.mem_append.mpr (Or.inl hmem2)
      · exact ih _ hst1 hst2 n hrest hc
    · have heq : ccLoop a iec inc (node :: rest) st = ccLoop a iec inc rest st := by
        simp only [ccLoop]
        rw [if_neg hg]
      rw [heq]
      rcases List.mem_cons.mp hmem with rfl | hrest
      · -- already colored: recorded earlier, and components only grow
        have hnc : st.nc.getD n false = true := by
          by_cases h : st.nc.getD n false = true
          · exact h
          · exact absurd ⟨hc, by
              cases hv : st.nc.getD n false
              · rfl
              · exact absurd hv h⟩ hg
        have hmem2 := h1 n hnc
        obtain ⟨⟨l, hl⟩, _, _, _, _⟩ := ccLoop_shape a iec inc rest st
        rw [hl, allElements_append]
        exact List.mem_append.mpr (Or.inl hmem2)
      · exact ih st h1 h2 n hrest hc

/-- The node classifier, read back as a statement about the outgoing bucket:
a node reads constant iff its outgoing bucket is non-empty and all its edges
read constant. -/
theorem isNodeConst_getD_iff (a : Analyser) (n : Nat) :
    (isNodeConstL a).getD n false = true ↔
    (a.next_edges.getD n [] ≠ [] ∧ ∀ e ∈ a.next_edges.getD n [],
      (isEdgeConstL a).getD e false = true) := by
  by_cases h : n < a.next_edges.length
  · obtain ⟨bucket, hb⟩ : ∃ b, a.next_edges.get? n = some b :=
      ⟨_, List.get?_eq_get h⟩
    have h1 : (isNodeConstL a).getD n false =
        (decide (0 < bucket.length) &&
          bucket.all (fun i => (isEdgeConstL a).getD i false)) := by
      rw [isNodeConstL, List.getD_eq_get?, List.get?_map, hb]
      rfl
    have h2 : a.next_edges.getD n [] = bucket := by
      rw [List.getD_eq_get?, hb]
      rfl
    rw [h1, h2]
    simp [List.all_eq_true, List.length_pos]
  · have h1 : (isNodeConstL a).getD n false = false := by
      rw [isNodeConstL, List.getD_eq_get?, List.get?_map,
        List.get?_len_le (Nat.le_of_not_lt h)]
      rfl
    have h2 : a.next_edges.getD n [] = [] := by
      rw [List.getD_eq_get?, List.get?_len_le (Nat.le_of_not_lt h)]
      rfl
    rw [h1, h2]
    simp

/-- C6: a node is placed in some component by `connected_components` iff it
has at least one outgoing edge and every one of its outgoing edges is constant
(its fact reports a concrete value); in particular a node with zero outgoing
edges is never in any component. -/
theorem c6_node_in_component_iff (a : Analyser) (n : Nat) :
    (∃ c, c ∈ connected_components a ∧ Element.Node n ∈ c.elements) ↔
    (a.next_edges.getD n [] ≠ [] ∧ ∀ e ∈ a.next_edges.getD n [],
      (isEdgeConstL a).getD e false = true) := by
  rw [← isNodeConst_getD_iff, ← mem_allElements]
  have hpre1 : ∀ m, (List.replicate a.nodes.length false).getD m false = true →
      Element.Node m ∈ allElements ([] : List Component) := by
    intro m hm
    exact absurd hm (by simp [getD_replicate_false])
  have hpre2 : ∀ m, Element.Node m ∈ allElements ([] : List Component) →
      (isNodeConstL a).getD m false = true := by
    intro m hm
    exact absurd hm (by simp [allElements])
  constructor
  · intro h
    exact (ccLoop_psiC a (isEdgeConstL a) (isNodeConstL a)
      (List.range (isNodeConstL a).length)
      { nc := List.replicate a.nodes.length false,
        ec := List.replicate a.edges.length false, comps := [] } hpre1 hpre2).2 n h
  · intro h
    exact ccLoop_cover a (isEdgeConstL a) (isNodeConstL a)
      (List.range (isNodeConstL a).length)
      { nc := List.replicate a.nodes.length false,
        ec := List.replicate a.edges.length false, comps := [] } hpre1 hpre2 n
      (List.mem_range.mpr (getD_true_lt _ _ h)) h

/-- One recording step of the uniqueness argument: recording edge `e` at the
moment its coloring flips keeps the recorded elements duplicate-free. -/
theorem psiB_step (iec : List Bool) (pre : List Element) (Qn : Nat → Prop)
    (s : EScan) (e : Nat) (hie : iec.getD e false = true)
    (hec : s.ec.getD e false = false)
    (hP : iec.length ≤ s.ec.length ∧
      (pre ++ s.elems).Nodup ∧
      (∀ e', Element.Edge e' ∈ pre ++ s.elems → s.ec.getD e' false = true) ∧
      (∀ n, Element.Node n ∈ pre ++ s.elems → Qn n)) :
    iec.length ≤ (s.ec.set e true).length ∧
      (pre ++ (s.elems ++ [Element.Edge e])).Nodup ∧
      (∀ e', Element.Edge e' ∈ pre ++ (s.elems ++ [Element.Edge e]) →
        (s.ec.set e true).getD e' false = true) ∧
      (∀ n, Element.Node n ∈ pre ++ (s.elems ++ [Element.Edge e]) → Qn n) := by
  obtain ⟨hlen, hnodup, hedge, hnode⟩ := hP
  have hnotin : Element.Edge e ∉ pre ++ s.elems := by
    intro hmem
    rw [hedge e hmem] at hec
    cases hec
  have hlt : e < s.ec.length :=
    Nat.lt_of_lt_of_le (getD_true_lt iec e hie) hlen
  refine ⟨by simpa [List.length_set] using hlen, ?_, ?_, ?_⟩
  · have h2 : ((pre ++ s.elems) ++ [Element.Edge e]).Nodup := by
      rw [List.nodup_append]
      refine ⟨hnodup, List.nodup_singleton _, ?_⟩
      intro x hx hx2
      simp only [List.mem_singleton] at hx2
      subst hx2
      exact hnotin hx
    simpa [List.append_assoc] using h2
  · intro e' hmem
    by_cases he' : e' = e
    · subst he'
      exact getD_set_self s.ec e' true hlt
    · have : Element.Edge e' ∈ pre ++ s.elems := by
        rcases List.mem_append.mp hmem with h | h
        · exact List.mem_append.mpr (Or.inl h)
        · rcases List.mem_append.mp h with h' | h'
          · exact List.mem_append.mpr (Or.inr h')
          · exact absurd (by simpa using h') he'
      exact getD_set_mono _ _ _ (hedge e' this)
  · intro n hmem
    refine hnode n ?_
    rcases List.mem_append.mp hmem with h | h
    · exact List.mem_append.mpr (Or.inl h)
    · rcases List.mem_append.mp h with h' | h'
      · exact List.mem_append.mpr (Or.inr h')
      · have : Element.Node n = Element.Edge e := by simpa using h'
        cases this

/-- Record/color synchronisation with uniqueness over one adjacency scan.
`Qn` abstracts the property enjoyed by recorded nodes (the scan itself records
no node element). -/
theorem processEdges_psiB (iec inc : List Bool) (oth : Nat → Option Nat)
    (bucket : List Nat) (pre : List Element) (Qn : Nat → Prop) :
    ∀ s, iec.length ≤ s.ec.length ∧
      (pre ++ s.elems).Nodup ∧
      (∀ e, Element.Edge e ∈ pre ++ s.elems → s.ec.getD e false = true) ∧
      (∀ n, Element.Node n ∈ pre ++ s.elems → Qn n) →
    iec.length ≤ (processEdges iec inc oth bucket s).ec.length ∧
      (pre ++ (processEdges iec inc oth bucket s).elems).Nodup ∧
      (∀ e, Element.Edge e ∈ pre ++ (processEdges iec inc oth bucket s).elems →
        (processEdges iec inc oth bucket s).ec.getD e false = true) ∧
      (∀ n, Element.Node n ∈ pre ++ (processEdges iec inc oth bucket s).elems → Qn n) := by
  intro s0 h0
  refine processEdges_rec iec inc oth bucket
    (fun s => iec.length ≤ s.ec.length ∧
      (pre ++ s.elems).Nodup ∧
      (∀ e, Element.Edge e ∈ pre ++ s.elems → s.ec.getD e false = true) ∧
      (∀ n, Element.Node n ∈ pre ++ s.elems → Qn n))
    ?_ ?_ ?_ s0 h0
  · intro s e _ hie hec _ hP
    exact psiB_step iec pre Qn s e hie hec hP
  · intro s e t _ hie hec _ _ hP
    exact psiB_step iec pre Qn s e hie hec hP
  · intro s e t _ hie hec _ _ hP
    exact psiB_step iec pre Qn s e hie hec hP

/-- Record/color synchronisation with uniqueness along the traversal: the
recorded elements (previously emitted plus current) are duplicate-free, every
recorded edge is edge-colored and every recorded node is node-colored. -/
theorem dfs_psiB (a : Analyser) (iec inc : List Bool) :
    ∀ (fuel : Nat) (stack : List Nat) (s : NScan) (pre : List Element),
    inc.length ≤ s.nc.length →
    iec.length ≤ s.ec.length →
    (pre ++ s.elems).Nodup →
    (∀ e, Element.Edge e ∈ pre ++ s.elems → s.ec.getD e false = true) →
    (∀ n, Element.Node n ∈ pre ++ s.elems → s.nc.getD n false = true) →
    inc.length ≤ (dfs a iec inc fuel stack s).nc.length ∧
    iec.length ≤ (dfs a iec inc fuel stack s).ec.length ∧
    (pre ++ (dfs a iec inc fuel stack s).elems).Nodup ∧
    (∀ e, Element.Edge e ∈ pre ++ (dfs a iec inc fuel stack s).elems →
      (dfs a iec inc fuel stack s).ec.getD e false = true) ∧
    (∀ n, Element.Node n ∈ pre ++ (dfs a iec inc fuel stack s).elems →
      (dfs a iec inc fuel stack s).nc.getD n false = true) := by
  intro fuel
  induction fuel with
  | zero => intro stack s pre h1 h2 h3 h4 h5; exact ⟨h1, h2, h3, h4, h5⟩
  | succ fuel ih =>
    intro stack s pre h1 h2 h3 h4 h5
    cases stack with
    | nil => exact ⟨h1, h2, h3, h4, h5⟩
    | cons node rest =>
      by_cases hg : inc.getD node false = true ∧ s.nc.getD node false = false
      · rw [dfs_cons_pos a iec inc fuel node rest s hg]
        have hnotin : Element.Node node ∉ pre ++ s.elems := by
          intro hmem
          rw [h5 node hmem] at hg
          exact absurd hg.2 (by simp)
        have hndlt : node < s.nc.length :=
          Nat.lt_of_lt_of_le (getD_true_lt inc node hg.1) h1
        have hnodup1 : (pre ++ (s.elems ++ [Element.Node node])).Nodup := by
          have h2' : ((pre ++ s.elems) ++ [Element.Node node]).Nodup := by
            rw [List.nodup_append]
            refine ⟨h3, List.nodup_singleton _, ?_⟩
            intro x hx hx2
            simp only [List.mem_singleton] at hx2
            subst hx2
            exact hnotin hx
          simpa [List.append_assoc] using h2'
        have hedge1 : ∀ e, Element.Edge e ∈ pre ++ (s.elems ++ [Element.Node node]) →
            s.ec.getD e false = true := by
          intro e hmem
          refine h4 e ?_
          rcases List.mem_append.mp hmem with h | h
          · exact List.mem_append.mpr (Or.inl h)
          · rcases List.mem_append.mp h with h' | h'
            · exact List.mem_append.mpr (Or.inr h')
            · have : Element.Edge e = Element.Node node := by simpa using h'
              cases this
        have hnode1 : ∀ n, Element.Node n ∈ pre ++ (s.elems ++ [Element.Node node]) →
            (s.nc.set node true).getD n false = true := by
          intro n hmem
          rcases List.mem_append.mp hmem with h | h
          · exact getD_set_mono _ _ _ (h5 n (List.mem_append.mpr (Or.inl h)))
          · rcases List.mem_append.mp h with h' | h'
            · exact getD_set_mono _ _ _ (h5 n (List.mem_append.mpr (Or.inr h')))
            · have hn : Element.Node n = Element.Node node := by simpa using h'
              cases hn
              exact getD_set_self s.nc node true hndlt
        obtain ⟨hp1, hp2, hp3, hp4⟩ := processEdges_psiB iec inc (otherPrev a)
          (a.prev_edges.getD node []) pre
          (fun n => (s.nc.set node true).getD n false = true)
          { ec := s.ec, elems := s.elems ++ [Element.Node node], outs := s.outs,
            stack := rest }
          ⟨h2, hnodup1, hedge1, hnode1⟩
        obtain ⟨hq1, hq2, hq3, hq4⟩ := processEdges_psiB iec inc (otherNext a)
          (a.next_edges.getD node []) pre
          (fun n => (s.nc.set node true).getD n false = true)
          (processEdges iec inc (otherPrev a) (a.prev_edges.getD node [])
            { ec := s.ec, elems := s.elems ++ [Element.Node node], outs := s.outs,
              stack := rest })
          ⟨hp1, hp2, hp3, hp4⟩
        refine ih _ _ pre ?_ ?_ ?_ ?_ ?_
        · simpa [List.length_set] using h1
        · exact hq1
        · exact hq2
        · exact hq3
        · exact hq4
      · rw [dfs_cons_neg a iec inc fuel node rest s hg]
        exact ih rest s pre h1 h2 h3 h4 h5

/-- Uniqueness of recorded elements over the outer loop. -/
theorem ccLoop_psiB (a : Analyser) (iec inc : List Bool) :
    ∀ (ns : List Nat) (st : CCSt),
    inc.length ≤ st.nc.length →
    iec.length ≤ st.ec.length →
    (allElements st.comps).Nodup →
    (∀ e, Element.Edge e ∈ allElements st.comps → st.ec.getD e false = true) →
    (∀ n, Element.Node n ∈ allElements st.comps → st.nc.getD n false = true) →
    (allElements (ccLoop a iec inc ns st).comps).Nodup := by
  intro ns
  induction ns with
  | nil => intro st _ _ h3 _ _; exact h3
  | cons node rest ih =>
    intro st h1 h2 h3 h4 h5
    by_cases hg : inc.getD node false = true ∧ st.nc.getD node false = false
    · have heq : ccLoop a iec inc (node :: rest) st =
        ccLoop a iec inc rest
          { nc := (dfs a iec inc (a.edges.length + 1) [node]
              { nc := st.nc, ec := st.ec, elems := [], outs := [] }).nc,
            ec := (dfs a iec inc (a.edges.length + 1) [node]
              { nc := st.nc, ec := st.ec, elems := [], outs := [] }).ec,
            comps := st.comps ++ [⟨(dfs a iec inc (a.edges.length + 1) [node]
              { nc := st.nc, ec := st.ec, elems := [], outs := [] }).elems,
              (dfs a iec inc (a.edges.length + 1) [node]
              { nc := st.nc, ec := st.ec, elems := [], outs := [] }).outs⟩] } := by
        simp only [ccLoop]
        rw [if_pos hg]
      rw [heq]
      obtain ⟨hd1, hd2, hd3, hd4, hd5⟩ := dfs_psiB a iec inc (a.edges.length + 1) [node]
        { nc := st.nc, ec := st.ec, elems := [], outs := [] } (allElements st.comps)
        h1 h2 (by simpa using h3) (fun e he => h4 e (by simpa using he))
        (fun n hn => h5 n (by simpa using hn))
      refine ih _ hd1 hd2 ?_ ?_ ?_
      · rw [allElements_append]
        simpa [allElements] using hd3
      · intro e he
        refine hd4 e ?_
        rw [allElements_append] at he
        simpa [allElements] using he
      · intro n hn
        refine hd5 n ?_
        rw [allElements_append] at hn
        simpa [allElements] using hn
    · have heq : ccLoop a iec inc (node :: rest) st = ccLoop a iec inc rest st := by
        simp only [ccLoop]
        rw [if_neg hg]
      rw [heq]
      exact ih st h1 h2 h3 h4 h5

/-- C8: in the component set returned by `connected_components`, every node id
and every edge id appears in at most one component's elements, and at most
once overall: the recorded elements form a partition of the constant region.
The hypothesis is the data-model invariant that the adjacency index is
parallel to the node sequence. -/
theorem c8_partition (a : Analyser) (h : a.next_edges.length = a.nodes.length) :
    (allElements (connected_components a)).Nodup := by
  refine ccLoop_psiB a (isEdgeConstL a) (isNodeConstL a)
    (List.range (isNodeConstL a).length)
    { nc := List.replicate a.nodes.length false,
      ec := List.replicate a.edges.length false, comps := [] }
    ?_ ?_ ?_ ?_ ?_
  · simp [isNodeConstL, h]
  · simp [isEdgeConstL]
  · simp [allElements]
  · intro e he
    exact absurd he (by simp [allElements])
  · intro n hn
    exact absurd hn (by simp [allElements])

/-- C8 witness: a concrete graph satisfying the hypothesis, on which the
recorded elements are duplicate-free. -/
theorem c8_partition_witness :
    c4_a.next_edges.length = c4_a.nodes.length ∧
    (allElements (connected_components c4_a)).Nodup :=
  ⟨by decide, c8_partition c4_a (by decide)⟩

/-- Boundary-output bookkeeping over one adjacency scan: outputs are
duplicate-free, colored, constant, and satisfy `Q`, which abstracts the
fact recorded at push time (present, non-constant other endpoint). -/
theorem processEdges_psiA (iec inc : List Bool) (oth : Nat → Option Nat)
    (bucket : List Nat) (preO : List Nat) (Q : Nat → Prop)
    (hQ : ∀ e t, e ∈ bucket → oth e = some t → inc.getD t false = false → Q e) :
    ∀ s, iec.length ≤ s.ec.length ∧
      (preO ++ s.outs).Nodup ∧
      (∀ e, e ∈ preO ++ s.outs → s.ec.getD e false = true) ∧
      (∀ e, e ∈ preO ++ s.outs → iec.getD e false = true) ∧
      (∀ e, e ∈ preO ++ s.outs → Q e) →
    iec.length ≤ (processEdges iec inc oth bucket s).ec.length ∧
      (preO ++ (processEdges iec inc oth bucket s).outs).Nodup ∧
      (∀ e, e ∈ preO ++ (processEdges iec inc oth bucket s).outs →
        (processEdges iec inc oth bucket s).ec.getD e false = true) ∧
      (∀ e, e ∈ preO ++ (processEdges iec inc oth bucket s).outs →
        iec.getD e false = true) ∧
      (∀ e, e ∈ preO ++ (processEdges iec inc oth bucket s).outs → Q e) := by
  intro s0 h0
  refine processEdges_rec iec inc oth bucket
    (fun s => iec.length ≤ s.ec.length ∧
      (preO ++ s.outs).Nodup ∧
      (∀ e, e ∈ preO ++ s.outs → s.ec.getD e false = true) ∧
      (∀ e, e ∈ preO ++ s.outs → iec.getD e false = true) ∧
      (∀ e, e ∈ preO ++ s.outs → Q e))
    ?_ ?_ ?_ s0 h0
  · intro s e _ hie hec _ hP
    obtain ⟨h1, h2, h3, h4, h5⟩ := hP
    exact ⟨by simpa [List.length_set] using h1, h2,
      fun e' he' => getD_set_mono _ _ _ (h3 e' he'), h4, h5⟩
  · intro s e t hmem hie hec ho ht hP
    obtain ⟨h1, h2, h3, h4, h5⟩ := hP
    have hlt : e < s.ec.length := Nat.lt_of_lt_of_le (getD_true_lt iec e hie) h1
    have hnotin : e ∉ preO ++ s.outs := by
      intro hin
      rw [h3 e hin] at hec
      cases hec
    refine ⟨by simpa [List.length_set] using h1, ?_, ?_, ?_, ?_⟩
    · have h2' : ((preO ++ s.outs) ++ [e]).Nodup := by
        rw [List.nodup_append]
        refine ⟨h2, List.nodup_singleton _, ?_⟩
        intro x hx hx2
        simp only [List.mem_singleton] at hx2
        subst hx2
        exact hnotin hx
      simpa [List.append_assoc] using h2'
    · intro e' he'
      by_cases heq : e' = e
      · subst heq
        exact getD_set_self s.ec e' true hlt
      · have : e' ∈ preO ++ s.outs := by
          rcases List.mem_append.mp he' with h | h
          · exact List.mem_append.mpr (Or.inl h)
          · rcases List.mem_append.mp h with h' | h'
            · exact List.mem_append.mpr (Or.inr h')
            · exact absurd (by simpa using h') heq
        exact getD_set_mono _ _ _ (h3 e' this)
    · intro e' he'
      rcases List.mem_append.mp he' with h | h
      · exact h4 e' (List.mem_append.mpr (Or.inl h))
      · rcases List.mem_append.mp h with h' | h'
        · exact h4 e' (List.mem_append.mpr (Or.inr h'))
        · have he2 : e' = e := by simpa using h'
          rw [he2]
          exact hie
    · intro e' he'
      rcases List.mem_append.mp he' with h | h
      · exact h5 e' (List.mem_append.mpr (Or.inl h))
      · rcases List.mem_append.mp h with h' | h'
        · exact h5 e' (List.mem_append.mpr (Or.inr h'))
        · have he2 : e' = e := by simpa using h'
          rw [he2]
          exact hQ e t hmem ho ht
  · intro s e t _ hie hec _ _ hP
    obtain ⟨h1, h2, h3, h4, h5⟩ := hP
    exact ⟨by simpa [List.length_set] using h1, h2,
      fun e' he' => getD_set_mono _ _ _ (h3 e' he'), h4, h5⟩

/-- Boundary-output bookkeeping along the traversal: all recorded outputs are
duplicate-free, constant, and carry the boundary fact `Pout`. -/
theorem dfs_psiA (a : Analyser) (iec inc : List Bool) :
    ∀ (fuel : Nat) (stack : List Nat) (s : NScan) (preO : List Nat),
    iec.length ≤ s.ec.length →
    (preO ++ s.outs).Nodup →
    (∀ e, e ∈ preO ++ s.outs → s.ec.getD e false = true) →
    (∀ e, e ∈ preO ++ s.outs → iec.getD e false = true) →
    (∀ e, e ∈ preO ++ s.outs → Pout a inc e) →
    iec.length ≤ (dfs a iec inc fuel stack s).ec.length ∧
    (preO ++ (dfs a iec inc fuel stack s).outs).Nodup ∧
    (∀ e, e ∈ preO ++ (dfs a iec inc fuel stack s).outs →
      (dfs a iec inc fuel stack s).ec.getD e false = true) ∧
    (∀ e, e ∈ preO ++ (dfs a iec inc fuel stack s).outs →
      iec.getD e false = true) ∧
    (∀ e, e ∈ preO ++ (dfs a iec inc fuel stack s).outs → Pout a inc e) := by
  intro fuel
  induction fuel with
  | zero => intro stack s preO h1 h2 h3 h4 h5; exact ⟨h1, h2, h3, h4, h5⟩
  | succ fuel ih =>
    intro stack s preO h1 h2 h3 h4 h5
    cases stack with
    | nil => exact ⟨h1, h2, h3, h4, h5⟩
    | cons node rest =>
      by_cases hg : inc.getD node false = true ∧ s.nc.getD node false = false
      · rw [dfs_cons_pos a iec inc fuel node rest s hg]
        obtain ⟨hp1, hp2, hp3, hp4, hp5⟩ := processEdges_psiA iec inc (otherPrev a)
          (a.prev_edges.getD node []) preO (Pout a inc)
          (fun e t he ho ht => Or.inl ⟨node, he, t, ho, ht⟩)
          { ec := s.ec, elems := s.elems ++ [Element.Node node], outs := s.outs,
            stack := rest }
          ⟨h1, h2, h3, h4, h5⟩
        obtain ⟨hq1, hq2, hq3, hq4, hq5⟩ := processEdges_psiA iec inc (otherNext a)
          (a.next_edges.getD node []) preO (Pout a inc)
          (fun e t he ho ht => Or.inr ⟨node, he, t, ho, ht⟩)
          (processEdges iec inc (otherPrev a) (a.prev_edges.getD node [])
            { ec := s.ec, elems := s.elems ++ [Element.Node node], outs := s.outs,
              stack := rest })
          ⟨hp1, hp2, hp3, hp4, hp5⟩
        exact ih _ _ preO hq1 hq2 hq3 hq4 hq5
      · rw [dfs_cons_neg a iec inc fuel node rest s hg]
        exact ih rest s preO h1 h2 h3 h4 h5

/-- Boundary-output bookkeeping over the outer loop. -/
theorem ccLoop_psiA (a : Analyser) (iec inc : List Bool) :
    ∀ (ns : List Nat) (st : CCSt),
    iec.length ≤ st.ec.length →
    (allOutputsOf st.comps).Nodup →
    (∀ e, e ∈ allOutputsOf st.comps → st.ec.getD e false = true) →
    (∀ e, e ∈ allOutputsOf st.comps → iec.getD e false = true) →
    (∀ e, e ∈ allOutputsOf st.comps → Pout a inc e) →
    (allOutputsOf (ccLoop a iec inc ns st).comps).Nodup ∧
    (∀ e, e ∈ allOutputsOf (ccLoop a iec inc ns st).comps →
      iec.getD e false = true) ∧
    (∀ e, e ∈ allOutputsOf (ccLoop a iec inc ns st).comps → Pout a inc e) := by
  intro ns
  induction ns with
  | nil => intro st _ h2 _ h4 h5; exact ⟨h2, h4, h5⟩
  | cons node rest ih =>
    intro st h1 h2 h3 h4 h5
    by_cases hg : inc.getD node false = true ∧ st.nc.getD node false = false
    · have heq : ccLoop a iec inc (node :: rest) st =
        ccLoop a iec inc rest
          { nc := (dfs a iec inc (a.edges.length + 1) [node]
              { nc := st.nc, ec := st.ec, elems := [], outs := [] }).nc,
            ec := (dfs a iec inc (a.edges.length + 1) [node]
              { nc := st.nc, ec := st.ec, elems := [], outs := [] }).ec,
            comps := st.comps ++ [⟨(dfs a iec inc (a.edges.length + 1) [node]
              { nc := st.nc, ec := st.ec, elems := [], outs := [] }).elems,
              (dfs a iec inc (a.edges.length + 1) [node]
              { nc := st.nc, ec := st.ec, elems := [], outs := [] }).outs⟩] } := by
        simp only [ccLoop]
        rw [if_pos hg]
      rw [heq]
      obtain ⟨hd1, hd2, hd3, hd4, hd5⟩ := dfs_psiA a iec inc (a.edges.length + 1) [node]
        { nc := st.nc, ec := st.ec, elems := [], outs := [] } (allOutputsOf st.comps)
        h1 (by simpa using h2) (fun e he => h3 e (by simpa using he))
        (fun e he => h4 e (by simpa using he)) (fun e he => h5 e (by simpa using he))
      refine ih _ hd1 ?_ ?_ ?_ ?_
      · rw [allOutputsOf_append]
        simpa [allOutputsOf] using hd2
      · intro e he
        refine hd3 e ?_
        rw [allOutputsOf_append] at he
        simpa [allOutputsOf] using he
      · intro e he
        refine hd4 e ?_
        rw [allOutputsOf_append] at he
        simpa [allOutputsOf] using he
      · intro e he
        refine hd5 e ?_
        rw [allOutputsOf_append] at he
        simpa [allOutputsOf] using he
    · have heq : ccLoop a iec inc (node :: rest) st = ccLoop a iec inc rest st := by
        simp only [ccLoop]
        rw [if_neg hg]
      rw [heq]
      exact ih st h1 h2 h3 h4 h5

/-- Facts about the boundary outputs of the detector: no duplicates, all
in-range constant edges, and each carries the boundary fact `Pout`. -/
theorem cc_outputs_facts (a : Analyser) :
    (allOutputsOf (connected_components a)).Nodup ∧
    (∀ e, e ∈ allOutputsOf (connected_components a) →
      (isEdgeConstL a).getD e false = true) ∧
    (∀ e, e ∈ allOutputsOf (connected_components a) →
      Pout a (isNodeConstL a) e) := by
  refine ccLoop_psiA a (isEdgeConstL a) (isNodeConstL a)
    (List.range (isNodeConstL a).length)
    { nc := List.replicate a.nodes.length false,
      ec := List.replicate a.edges.length false, comps := [] }
    ?_ ?_ ?_ ?_ ?_
  · simp [isEdgeConstL]
  · simp [allOutputsOf]
  · intro e he
    exact absurd he (by simp [allOutputsOf])
  · intro e he
    exact absurd he (by simp [allOutputsOf])
  · intro e he
    exact absurd he (by simp [allOutputsOf])

/-- Unpacking the boundary fact: the recorded edge exists, and its source or
its destination is a present, non-constant endpoint. -/
theorem Pout_elim (a : Analyser) (inc : List Bool) (e : Nat) (h : Pout a inc e) :
    ∃ ed, a.edges.get? e = some ed ∧
      ((∃ o, ed.from_ = some o ∧ inc.getD o.node false = false) ∨
       (∃ m, ed.to_node = some m ∧ inc.getD m false = false)) := by
  rcases h with ⟨n, _, t, hot, htf⟩ | ⟨n, _, t, hot, htf⟩
  · cases hue : a.edges.get? e with
    | none => rw [otherPrev, hue] at hot; cases hot
    | some ed =>
      rw [otherPrev, hue] at hot
      simp only [Option.some_bind] at hot
      cases hfo : ed.from_ with
      | none => rw [hfo] at hot; cases hot
      | some o =>
        rw [hfo] at hot
        simp only [Option.map_some'] at hot
        have ht2 : o.node = t := by simpa using hot
        exact ⟨ed, rfl, Or.inl ⟨o, hfo, by rw [ht2]; exact htf⟩⟩
  · cases hue : a.edges.get? e with
    | none => rw [otherNext, hue] at hot; cases hot
    | some ed =>
      rw [otherNext, hue] at hot
      simp only [Option.some_bind] at hot
      exact ⟨ed, rfl, Or.inr ⟨t, hot, htf⟩⟩

/-- C4 amended: every edge in a component's outputs list has a present
resolved other endpoint (its source or its destination) that is classified
non-constant. -/
theorem c4_amended (a : Analyser) (c : Component) (e : Nat)
    (hc : c ∈ connected_components a) (he : e ∈ c.outputs) :
    ∃ ed, a.edges.get? e = some ed ∧
      ((∃ o, ed.from_ = some o ∧ (isNodeConstL a).getD o.node false = false) ∨
       (∃ m, ed.to_node = some m ∧ (isNodeConstL a).getD m false = false)) := by
  have hmem : e ∈ allOutputsOf (connected_components a) :=
    (mem_allOutputsOf _ _).mpr ⟨c, hc, he⟩
  exact Pout_elim a _ e ((cc_outputs_facts a).2.2 e hmem)

/-- C4 amended, witness: the concrete boundary edge 0 of `c4_a` has its
present source endpoint (node 0) non-constant. -/
theorem c4_amended_witness :
    (⟨[Element.Node 1, Element.Edge 0, Element.Edge 2], [0, 2]⟩ : Component) ∈
      connected_components c4_a ∧
    ∃ ed, c4_a.edges.get? 0 = some ed ∧
      ((∃ o, ed.from_ = some o ∧ (isNodeConstL c4_a).getD o.node false = false) ∨
       (∃ m, ed.to_node = some m ∧ (isNodeConstL c4_a).getD m false = false)) :=
  ⟨by decide, c4_amended c4_a ⟨[Element.Node 1, Element.Edge 0, Element.Edge 2], [0, 2]⟩ 0
    (by decide) (by decide)⟩

/-- Reading the outgoing half of adjacency consistency. -/
theorem adjConsistent_next (a : Analyser) (h : adjConsistentB a = true) :
    ∀ n e, e ∈ a.next_edges.getD n [] →
    ∃ ed, a.edges.get? e = some ed ∧ ∃ o, ed.from_ = some o ∧ o.node = n := by
  intro n e he
  have hn : n < a.next_edges.length := by
    by_cases hlt : n < a.next_edges.length
    · exact hlt
    · rw [List.getD_eq_get?, List.get?_len_le (Nat.le_of_not_lt hlt)] at he
      cases he
  rw [adjConsistentB, Bool.and_eq_true] at h
  have h1 := h.1
  rw [List.all_eq_true] at h1
  have h2 := h1 n (List.mem_range.mpr hn)
  rw [List.all_eq_true] at h2
  have h3 := h2 e he
  cases hue : a.edges.get? e with
  | none => rw [hue] at h3; cases h3
  | some ed =>
    simp only [hue] at h3
    cases hfo : ed.from_ with
    | none => simp [hfo] at h3
    | some o =>
      simp only [hfo] at h3
      exact ⟨ed, rfl, o, hfo, by simpa using h3⟩

/-- Reading the incoming half of adjacency consistency. -/
theorem adjConsistent_prev (a : Analyser) (h : adjConsistentB a = true) :
    ∀ n e, e ∈ a.prev_edges.getD n [] →
    ∃ ed, a.edges.get? e = some ed ∧ ed.to_node = some n := by
  intro n e he
  have hn : n < a.prev_edges.length := by
    by_cases hlt : n < a.prev_edges.length
    · exact hlt
    · rw [List.getD_eq_get?, List.get?_len_le (Nat.le_of_not_lt hlt)] at he
      cases he
  rw [adjConsistentB, Bool.and_eq_true] at h
  have h1 := h.2
  rw [List.all_eq_true] at h1
  have h2 := h1 n (List.mem_range.mpr hn)
  rw [List.all_eq_true] at h2
  have h3 := h2 e he
  cases hue : a.edges.get? e with
  | none => rw [hue] at h3; cases h3
  | some ed =>
    simp only [hue] at h3
    exact ⟨ed, rfl, by simpa using h3⟩

/-- C10: when the adjacency indexes are consistent with the edges' endpoint
fields, every edge placed in a component's outputs list has both a present
source and a present destination; the rewriter's `from.unwrap()` and
`to_node.unwrap()` on detector-produced boundary edges therefore cannot
fail. -/
theorem c10_outputs_endpoints (a : Analyser) (h : adjConsistentB a = true) :
    ∀ c ∈ connected_components a, ∀ e ∈ c.outputs,
    ∃ ed, a.edges.get? e = some ed ∧
      ed.from_.isSome = true ∧ ed.to_node.isSome = true := by
  intro c hc e he
  have hmem : e ∈ allOutputsOf (connected_components a) :=
    (mem_allOutputsOf _ _).mpr ⟨c, hc, he⟩
  have hp := (cc_outputs_facts a).2.2 e hmem
  rcases hp with ⟨n, hbmem, t, hot, _⟩ | ⟨n, hbmem, t, hot, _⟩
  · obtain ⟨ed, hue, hto⟩ := adjConsistent_prev a h n e hbmem
    refine ⟨ed, hue, ?_, by rw [hto]; rfl⟩
    rw [otherPrev, hue] at hot
    simp only [Option.some_bind] at hot
    cases hfo : ed.from_ with
    | none => rw [hfo] at hot; cases hot
    | some o => rfl
  · obtain ⟨ed, hue, o, hfo, _⟩ := adjConsistent_next a h n e hbmem
    refine ⟨ed, hue, by rw [hfo]; rfl, ?_⟩
    rw [otherNext, hue] at hot
    simp only [Option.some_bind] at hot
    rw [hot]
    rfl

/-- C10 witness: on the concrete graph `c4_a` (whose indexes are consistent),
the boundary edge 0 has both endpoints present. -/
theorem c10_outputs_endpoints_witness :
    adjConsistentB c4_a = true ∧
    ∃ ed, c4_a.edges.get? 0 = some ed ∧
      ed.from_.isSome = true ∧ ed.to_node.isSome = true :=
  ⟨by decide, c10_outputs_endpoints c4_a (by decide)
    ⟨[Element.Node 1, Element.Edge 0, Element.Edge 2], [0, 2]⟩ (by decide) 0 (by decide)⟩

/-! ### Cache and list lemmas for the rewiring loop -/

/-- A hit in the cache survives appending a new entry. -/
theorem lookupCache_append_of_some (c : List (List Int × Nat))
    (x : List Int × Nat) (k : List Int) (v : Nat)
    (h : lookupCache c k = some v) : lookupCache (c ++ [x]) k = some v := by
  induction c with
  | nil => cases h
  | cons p rest ih =>
    rw [lookupCache] at h
    by_cases hk : p.1 = k
    · rw [List.cons_append, lookupCache]
      rw [if_pos hk] at h ⊢
      exact h
    · rw [List.cons_append, lookupCache]
      rw [if_neg hk] at h ⊢
      exact ih h

/-- Appending a fresh entry makes its key hit. -/
theorem lookupCache_append_self (c : List (List Int × Nat)) (k : List Int)
    (v : Nat) (h : lookupCache c k = none) :
    lookupCache (c ++ [(k, v)]) k = some v := by
  induction c with
  | nil => simp [lookupCache]
  | cons p rest ih =>
    rw [lookupCache] at h
    by_cases hk : p.1 = k
    · rw [if_pos hk] at h
      cases h
    · rw [if_neg hk] at h
      rw [List.cons_append, lookupCache, if_neg hk]
      exact ih h

/-- A cache hit is an entry of the cache. -/
theorem lookupCache_mem (c : List (List Int × Nat)) (k : List Int) (v : Nat)
    (h : lookupCache c k = some v) : (k, v) ∈ c := by
  induction c with
  | nil => cases h
  | cons p rest ih =>
    rw [lookupCache] at h
    by_cases hk : p.1 = k
    · rw [if_pos hk] at h
      obtain ⟨p1, p2⟩ := p
      injection h with h2
      rw [← hk, ← h2]
      exact List.mem_cons_self _ _
    · rw [if_neg hk] at h
      exact List.mem_cons_of_mem _ (ih h)

/-- The invariant holds before any rewiring. -/
theorem Phi_init (a : Analyser) : Phi a [] [] a := by
  refine ⟨rfl, Nat.le_refl _, ?_, fun _ _ => rfl, ?_, ?_, ?_, ?_⟩
  · intro idx nOld h
    exact ⟨nOld, h, rfl, rfl, rfl, rfl⟩
  · intro e he
    cases he
  · intro pr hpr
    cases hpr
  · intro e he
    cases he
  · intro e1 he1
    cases he1

/-- A successful lookup is in range. -/
theorem get?_some_lt {α : Type} (l : List α) (n : Nat) (x : α)
    (h : l.get? n = some x) : n < l.length := by
  by_cases hlt : n < l.length
  · exact hlt
  · rw [List.get?_len_le (Nat.le_of_not_lt hlt)] at h
    cases h

/-- Reading an index that was just set, when it is in range. -/
theorem get?_set_self' {α : Type} (l : List α) (n : Nat) (x y : α)
    (h : l.get? n = some y) : (l.set n x).get? n = some x := by
  rw [List.get?_set_eq, h]
  rfl

/-- Two rewritings of the same edge agree on the new source node. -/
theorem edge_from_new_inj (old : Edge) (k1 k2 : Nat)
    (h : ({ old with from_ := some (OutletId.new k1 0) } : Edge) =
         { old with from_ := some (OutletId.new k2 0) }) : k1 = k2 := by
  have h2 := congrArg Edge.from_ h
  simp only [OutletId.new, Option.some.injEq, OutletId.mk.injEq] at h2
  exact h2.1

/-- The rewiring tail of one fold step preserves the frame/dedup invariant,
given a summary of the node-resolution phase: `newNodes` is the node list
after resolution (unchanged on a cache hit, one constant node appended
otherwise), `k` the chosen producing node. -/
theorem phi_tail (a : Analyser) (S : List Nat)
    (cache cache' : List (List Int × Nat)) (b b' : Analyser) (e : Nat)
    (edge0 : Edge) (k : Nat) (newNodes : List Node) (dest : Nat) (dnode : Node)
    (p : Nat) (prevE nextE : List (List Nat))
    (hPhi : Phi a S cache b) (hnot : e ∉ S)
    (hue : b.edges.get? e = some edge0)
    (hnodes : newNodes = b.nodes ∨ ∃ cn, newNodes = b.nodes ++ [cn])
    (hklo : a.nodes.length ≤ k) (hkhi : k < newNodes.length)
    (hcache : ∀ pr, pr ∈ cache' → a.nodes.length ≤ pr.2 ∧ pr.2 < newNodes.length)
    (hlookups : ∀ d v, lookupCache cache d = some v → lookupCache cache' d = some v)
    (hlookE : ∀ d, edge0.fact.value = some (Tensor.i32s d) →
      lookupCache cache' d = some k)
    (hfresh : ∀ tg, edge0.fact.value = some (Tensor.other tg) → k = b.nodes.length)
    (hdest : newNodes.get? dest = some dnode)
    (hb' : b' =
      { nodes :=
          newNodes.set dest
            ({ dnode with inputs := dnode.inputs.set p (OutletId.new k 0) }),
        edges := b.edges.set e ({ edge0 with from_ := some (OutletId.new k 0) }),
        prev_edges := prevE, next_edges := nextE }) :
    Phi a (e :: S) cache' b' := by
  obtain ⟨hE, hNle, hN1, hE1, hE2, hC, hCF, hFR⟩ := hPhi
  have hblen : b.nodes.length ≤ newNodes.length := by
    rcases hnodes with h | ⟨cn, h⟩
    · rw [h]
    · rw [h, List.length_append]
      exact Nat.le_add_right _ _
  have haE : a.edges.get? e = some edge0 := by
    rw [← hE1 e hnot]
    exact hue
  have hb'nodes_len : b'.nodes.length = newNodes.length := by
    rw [hb']
    exact List.length_set _ _ _
  have hb'edges_get : ∀ e', e' ≠ e → b'.edges.get? e' = b.edges.get? e' := by
    intro e' hne
    rw [hb']
    exact List.get?_set_ne _ _ (fun h => hne h.symm)
  have hb'edges_e : b'.edges.get? e =
      some { edge0 with from_ := some (OutletId.new k 0) } := by
    rw [hb']
    exact get?_set_self' b.edges e _ edge0 hue
  have hnewNodes_get : ∀ idx, idx < b.nodes.length →
      newNodes.get? idx = b.nodes.get? idx := by
    intro idx hidx
    rcases hnodes with h | ⟨cn, h⟩
    · rw [h]
    · rw [h]
      exact List.get?_append hidx
  have hb'nodes_get : ∀ idx, idx ≠ dest → b'.nodes.get? idx = newNodes.get? idx := by
    intro idx hne
    rw [hb']
    exact List.get?_set_ne _ _ (fun h => hne h.symm)
  have hb'nodes_dest : b'.nodes.get? dest =
      some { dnode with inputs := dnode.inputs.set p (OutletId.new k 0) } := by
    rw [hb']
    exact get?_set_self' newNodes dest _ dnode hdest
  refine ⟨?_, ?_, ?_, ?_, ?_, ?_, ?_, ?_⟩
  · rw [hb']
    show (b.edges.set e _).length = a.edges.length
    rw [List.length_set]
    exact hE
  · rw [hb'nodes_len]
    exact Nat.le_trans hNle hblen
  · intro idx nOld ha
    obtain ⟨nb, hb2, f1, f2, f3, f4⟩ := hN1 idx nOld ha
    have hidx : idx < b.nodes.length := get?_some_lt _ _ _ hb2
    have hnn : newNodes.get? idx = some nb := by
      rw [hnewNodes_get idx hidx]
      exact hb2
    by_cases hd : idx = dest
    · subst hd
      have hdn : dnode = nb := by
        rw [hdest] at hnn
        exact Option.some.inj hnn
      refine ⟨{ dnode with inputs := dnode.inputs.set p (OutletId.new k 0) },
        hb'nodes_dest, ?_, ?_, ?_, ?_⟩
      · show dnode.name = nOld.name
        rw [hdn]
        exact f1
      · show dnode.op_name = nOld.op_name
        rw [hdn]
        exact f2
      · show dnode.op = nOld.op
        rw [hdn]
        exact f3
      · show dnode.id = nOld.id
        rw [hdn]
        exact f4
    · refine ⟨nb, ?_, f1, f2, f3, f4⟩
      rw [hb'nodes_get idx hd]
      exact hnn
  · intro e' he'
    have hne : e' ≠ e := fun h => he' (h ▸ List.mem_cons_self e S)
    have hns : e' ∉ S := fun h => he' (List.mem_cons_of_mem e h)
    rw [hb'edges_get e' hne]
    exact hE1 e' hns
  · intro e' he'
    rcases List.mem_cons.mp he' with rfl | hs
    · exact ⟨edge0, k, haE, hb'edges_e, hklo, by rw [hb'nodes_len]; exact hkhi⟩
    · obtain ⟨old, k', ha', hb2, hlo', hhi'⟩ := hE2 e' hs
      have hne : e' ≠ e := fun h => hnot (h ▸ hs)
      refine ⟨old, k', ha', ?_, hlo', ?_⟩
      · rw [hb'edges_get e' hne]
        exact hb2
      · rw [hb'nodes_len]
        exact Nat.lt_of_lt_of_le hhi' hblen
  · intro pr hpr
    obtain ⟨h1, h2⟩ := hcache pr hpr
    exact ⟨h1, by rw [hb'nodes_len]; exact h2⟩
  · intro e' he' old d ha' hfact
    rcases List.mem_cons.mp he' with rfl | hs
    · have hold : old = edge0 := by
        rw [haE] at ha'
        exact (Option.some.inj ha').symm
      subst hold
      exact ⟨k, hlookE d hfact, hb'edges_e⟩
    · obtain ⟨v, hl, hbe⟩ := hCF e' hs old d ha' hfact
      have hne : e' ≠ e := fun h => hnot (h ▸ hs)
      refine ⟨v, hlookups d v hl, ?_⟩
      rw [hb'edges_get e' hne]
      exact hbe
  · intro e1 he1 e2 he2 hne12 old1 old2 t1 t2 k1 k2 ha1 ha2 hf1 hf2 hb1 hb2
    rcases List.mem_cons.mp he1 with rfl | hs1
    · rcases List.mem_cons.mp he2 with rfl | hs2
      · exact absurd rfl hne12
      · -- e1 is the new edge (non-i32, fresh node), e2 was rewired earlier
        have hold1 : old1 = edge0 := by
          rw [haE] at ha1
          exact (Option.some.inj ha1).symm
        subst hold1
        have hk1 : k1 = k := by
          rw [hb'edges_e] at hb1
          exact (edge_from_new_inj _ _ _ (Option.some.inj hb1)).symm
        have hkfresh : k = b.nodes.length := hfresh t1 hf1
        obtain ⟨old', k', ha', hb2', hlo', hhi'⟩ := hE2 e2 hs2
        have hold2 : old' = old2 := by
          rw [ha2] at ha'
          exact (Option.some.inj ha').symm
        subst hold2
        have hne2 : e2 ≠ e1 := fun h => hnot (h ▸ hs2)
        rw [hb'edges_get e2 hne2] at hb2
        rw [hb2'] at hb2
        have hk2 : k2 = k' := (edge_from_new_inj _ _ _ (Option.some.inj hb2)).symm
        rw [hk1, hk2, hkfresh]
        exact fun h => absurd (h ▸ hhi') (Nat.lt_irrefl _)
    · rcases List.mem_cons.mp he2 with rfl | hs2
      · -- symmetric: e2 is the new edge
        have hold2 : old2 = edge0 := by
          rw [haE] at ha2
          exact (Option.some.inj ha2).symm
        subst hold2
        have hk2 : k2 = k := by
          rw [hb'edges_e] at hb2
          exact (edge_from_new_inj _ _ _ (Option.some.inj hb2)).symm
        have hkfresh : k = b.nodes.length := hfresh t2 hf2
        obtain ⟨old', k', ha', hb1', hlo', hhi'⟩ := hE2 e1 hs1
        have hold1 : old' = old1 := by
          rw [ha1] at ha'
          exact (Option.some.inj ha').symm
        subst hold1
        have hne1 : e1 ≠ e2 := fun h => hnot (h ▸ hs1)
        rw [hb'edges_get e1 hne1] at hb1
        rw [hb1'] at hb1
        have hk1 : k1 = k' := (edge_from_new_inj _ _ _ (Option.some.inj hb1)).symm
        rw [hk1, hk2, hkfresh]
        exact fun h => absurd (h.symm ▸ hhi') (Nat.lt_irrefl _)
      · -- both rewired earlier: the invariant for `b` applies unchanged
        have hne1 : e1 ≠ e := fun h => hnot (h ▸ hs1)
        have hne2 : e2 ≠ e := fun h => hnot (h ▸ hs2)
        rw [hb'edges_get e1 hne1] at hb1
        rw [hb'edges_get e2 hne2] at hb2
        exact hFR e1 hs1 e2 hs2 hne12 old1 old2 t1 t2 k1 k2 ha1 ha2 hf1 hf2 hb1 hb2

/-- Node resolution on an i32 tensor with a cache hit. -/
theorem resolveNode_i32_hit (cache : List (List Int × Nat)) (a : Analyser)
    (d : List Int) (v : Nat) (h : lookupCache cache d = some v) :
    resolveNode cache a (Tensor.i32s d) = (cache, a, v) := by
  simp [resolveNode, Tensor.take_i32s, h]

/-- Node resolution on an i32 tensor with a cache miss. -/
theorem resolveNode_i32_miss (cache : List (List Int × Nat)) (a : Analyser)
    (d : List Int) (h : lookupCache cache d = none) :
    resolveNode cache a (Tensor.i32s d) =
      (cache ++ [(d, a.nodes.length)],
       { a with nodes := a.nodes ++ [build_const_node a.nodes.length
           ("generated_" ++ toString a.nodes.length) (Tensor.i32s d)] },
       a.nodes.length) := by
  simp [resolveNode, Tensor.take_i32s, h]

/-- Node resolution on a non-i32 tensor: always a fresh node, no dedup. -/
theorem resolveNode_other (cache : List (List Int × Nat)) (a : Analyser)
    (tg : Nat) :
    resolveNode cache a (Tensor.other tg) =
      (cache, { a with nodes := a.nodes ++ [build_const_node a.nodes.length
          ("generated_" ++ toString a.nodes.length) (Tensor.other tg)] },
       a.nodes.length) := by
  simp [resolveNode, Tensor.take_i32s]

/-- One successful fold step preserves the frame/dedup invariant. -/
theorem foldStep_phi (a : Analyser) (S : List Nat)
    (cache cache' : List (List Int × Nat)) (b b' : Analyser) (e : Nat)
    (hPhi : Phi a S cache b) (hnot : e ∉ S)
    (hstep : foldStep (cache, b) e = some (cache', b')) :
    Phi a (e :: S) cache' b' := by
  cases hue : b.edges.get? e with
  | none => simp only [foldStep, hue] at hstep; exact Option.noConfusion hstep
  | some edge0 =>
  cases hfv : edge0.fact.value with
  | none => simp only [foldStep, hue, hfv] at hstep; exact Option.noConfusion hstep
  | some tensor =>
  cases hfo : edge0.from_ with
  | none => simp only [foldStep, hue, hfv, hfo] at hstep; exact Option.noConfusion hstep
  | some oldOutlet =>
  cases tensor with
  | i32s d =>
    cases hlk : lookupCache cache d with
    | some v =>
      simp only [foldStep, hue, hfv, resolveNode_i32_hit cache b d v hlk, hfo] at hstep
      cases hsucc : b.next_edges.get? oldOutlet.node with
      | none => simp only [hsucc] at hstep; exact Option.noConfusion hstep
      | some successors =>
      simp only [hsucc] at hstep
      cases hpos : successors.findIdx? (fun x => x = edge0.id) with
      | none => simp only [hpos] at hstep; exact Option.noConfusion hstep
      | some position =>
      simp only [hpos] at hstep
      cases hto : edge0.to_node with
      | none => simp only [hto] at hstep; exact Option.noConfusion hstep
      | some dest =>
      simp only [hto] at hstep
      cases hdn : b.nodes.get? dest with
      | none => simp only [hdn] at hstep; exact Option.noConfusion hstep
      | some dnode =>
      simp only [hdn] at hstep
      cases hp : dnode.inputs.findIdx? (fun o => o.node = oldOutlet.node) with
      | none => simp only [hp] at hstep; exact Option.noConfusion hstep
      | some p =>
      simp only [hp, Option.some.injEq, Prod.mk.injEq] at hstep
      obtain ⟨hc, hb⟩ := hstep
      obtain ⟨hvlo, hvhi⟩ := hPhi.2.2.2.2.2.1 (d, v) (lookupCache_mem cache d v hlk)
      refine phi_tail a S cache cache' b b' e edge0 v b.nodes dest dnode p
        (b.prev_edges ++ [[]])
        ((b.next_edges.set oldOutlet.node (successors.eraseIdx position)) ++ [[edge0.id]])
        hPhi hnot hue (Or.inl rfl) hvlo hvhi ?_ ?_ ?_ ?_ hdn ?_
      · intro pr hpr
        rw [← hc] at hpr
        exact hPhi.2.2.2.2.2.1 pr hpr
      · intro d2 v2 hl
        rw [← hc]
        exact hl
      · intro d2 hfd
        rw [hfv] at hfd
        have hd : d2 = d := by
          have := Option.some.inj hfd
          cases this
          rfl
        rw [← hc, hd]
        exact hlk
      · intro tg hft
        rw [hfv] at hft
        cases Option.some.inj hft
      · rw [hto]
        exact hb.symm
    | none =>
      simp only [foldStep, hue, hfv, resolveNode_i32_miss cache b d hlk, hfo] at hstep
      cases hsucc : b.next_edges.get? oldOutlet.node with
      | none => simp only [hsucc] at hstep; exact Option.noConfusion hstep
      | some successors =>
      simp only [hsucc] at hstep
      cases hpos : successors.findIdx? (fun x => x = edge0.id) with
      | none => simp only [hpos] at hstep; exact Option.noConfusion hstep
      | some position =>
      simp only [hpos] at hstep
      cases hto : edge0.to_node with
      | none => simp only [hto] at hstep; exact Option.noConfusion hstep
      | some dest =>
      simp only [hto] at hstep
      cases hdn : (b.nodes ++ [build_const_node b.nodes.length
          ("generated_" ++ toString b.nodes.length) (Tensor.i32s d)]).get? dest with
      | none => simp only [hdn] at hstep; exact Option.noConfusion hstep
      | some dnode =>
      simp only [hdn] at hstep
      cases hp : dnode.inputs.findIdx? (fun o => o.node = oldOutlet.node) with
      | none => simp only [hp] at hstep; exact Option.noConfusion hstep
      | some p =>
      simp only [hp, Option.some.injEq, Prod.mk.injEq] at hstep
      obtain ⟨hc, hb⟩ := hstep
      refine phi_tail a S cache cache' b b' e edge0 b.nodes.length
        (b.nodes ++ [build_const_node b.nodes.length
          ("generated_" ++ toString b.nodes.length) (Tensor.i32s d)]) dest dnode p
        (b.prev_edges ++ [[]])
        ((b.next_edges.set oldOutlet.node (successors.eraseIdx position)) ++ [[edge0.id]])
        hPhi hnot hue (Or.inr ⟨_, rfl⟩) hPhi.2.1
        (by simp) ?_ ?_ ?_ ?_ hdn ?_
      · intro pr hpr
        rw [← hc] at hpr
        rcases List.mem_append.mp hpr with h | h
        · obtain ⟨h1, h2⟩ := hPhi.2.2.2.2.2.1 pr h
          refine ⟨h1, ?_⟩
          simp only [List.length_append, List.length_cons, List.length_nil]
          exact Nat.lt_succ_of_lt h2
        · have : pr = (d, b.nodes.length) := by simpa using h
          rw [this]
          exact ⟨hPhi.2.1, by simp⟩
      · intro d2 v2 hl
        rw [← hc]
        exact lookupCache_append_of_some cache _ d2 v2 hl
      · intro d2 hfd
        rw [hfv] at hfd
        have hd : d2 = d := by
          have := Option.some.inj hfd
          cases this
          rfl
        rw [← hc, hd]
        exact lookupCache_append_self cache d b.nodes.length hlk
      · intro tg hft
        rfl
      · rw [hto]
        exact hb.symm
  | other tg =>
    simp only [foldStep, hue, hfv, resolveNode_other cache b tg, hfo] at hstep
    cases hsucc : b.next_edges.get? oldOutlet.node with
    | none => simp only [hsucc] at hstep; exact Option.noConfusion hstep
    | some successors =>
    simp only [hsucc] at hstep
    cases hpos : successors.findIdx? (fun x => x = edge0.id) with
    | none => simp only [hpos] at hstep; exact Option.noConfusion hstep
    | some position =>
    simp only [hpos] at hstep
    cases hto : edge0.to_node with
    | none => simp only [hto] at hstep; exact Option.noConfusion hstep
    | some dest =>
    simp only [hto] at hstep
    cases hdn : (b.nodes ++ [build_const_node b.nodes.length
        ("generated_" ++ toString b.nodes.length) (Tensor.other tg)]).get? dest with
    | none => simp only [hdn] at hstep; exact Option.noConfusion hstep
    | some dnode =>
    simp only [hdn] at hstep
    cases hp : dnode.inputs.findIdx? (fun o => o.node = oldOutlet.node) with
    | none => simp only [hp] at hstep; exact Option.noConfusion hstep
    | some p =>
    simp only [hp, Option.some.injEq, Prod.mk.injEq] at hstep
    obtain ⟨hc, hb⟩ := hstep
    refine phi_tail a S cache cache' b b' e edge0 b.nodes.length
      (b.nodes ++ [build_const_node b.nodes.length
        ("generated_" ++ toString b.nodes.length) (Tensor.other tg)]) dest dnode p
        (b.prev_edges ++ [[]])
        ((b.next_edges.set oldOutlet.node (successors.eraseIdx position)) ++ [[edge0.id]])
        hPhi hnot hue (Or.inr ⟨_, rfl⟩) hPhi.2.1
      (by simp) ?_ ?_ ?_ ?_ hdn ?_
    · intro pr hpr
      rw [← hc] at hpr
      obtain ⟨h1, h2⟩ := hPhi.2.2.2.2.2.1 pr hpr
      refine ⟨h1, ?_⟩
      simp only [List.length_append, List.length_cons, List.length_nil]
      exact Nat.lt_succ_of_lt h2
    · intro d2 v2 hl
      rw [← hc]
      exact hl
    · intro d2 hfd
      rw [hfv] at hfd
      cases Option.some.inj hfd
    · intro tg2 hft
      rfl
    · rw [hto]
      exact hb.symm

/-- The invariant only depends on the membership of the processed set. -/
theorem Phi_congr (a : Analyser) (S S' : List Nat)
    (cache : List (List Int × Nat)) (b : Analyser)
    (h : ∀ x, x ∈ S ↔ x ∈ S') (hPhi : Phi a S cache b) : Phi a S' cache b := by
  obtain ⟨h1, h2, h3, h4, h5, h6, h7, h8⟩ := hPhi
  refine ⟨h1, h2, h3, ?_, ?_, h6, ?_, ?_⟩
  · intro e he
    exact h4 e (fun hx => he ((h e).mp hx))
  · intro e he
    exact h5 e ((h e).mpr he)
  · intro e he
    exact h7 e ((h e).mpr he)
  · intro e1 he1 e2 he2
    exact h8 e1 ((h e1).mpr he1) e2 ((h e2).mpr he2)

/-- The invariant is preserved along a whole run of the inner rewiring loop. -/
theorem foldOutputs_phi (a : Analyser) :
    ∀ (L S : List Nat) (cache : List (List Int × Nat)) (b : Analyser)
    (st' : List (List Int × Nat) × Analyser),
    Phi a S cache b → (∀ e ∈ L, e ∉ S) → L.Nodup →
    foldOutputs L (cache, b) = some st' →
    Phi a (L ++ S) st'.1 st'.2 := by
  intro L
  induction L with
  | nil =>
    intro S cache b st' hPhi _ _ hfold
    have : st' = (cache, b) := (Option.some.inj hfold).symm
    rw [this]
    exact hPhi
  | cons i rest ih =>
    intro S cache b st' hPhi hdisj hnodup hfold
    rw [foldOutputs] at hfold
    cases hfs : foldStep (cache, b) i with
    | none => rw [hfs] at hfold; cases hfold
    | some st1 =>
      rw [hfs] at hfold
      obtain ⟨c1, b1⟩ := st1
      have hPhi1 : Phi a (i :: S) c1 b1 :=
        foldStep_phi a S cache c1 b b1 i hPhi (hdisj i (by simp)) hfs
      have hdisj1 : ∀ e ∈ rest, e ∉ i :: S := by
        intro e he hmem
        rcases List.mem_cons.mp hmem with rfl | hs
        · exact (List.nodup_cons.mp hnodup).1 he
        · exact hdisj e (by simp [he]) hs
      have := ih (i :: S) c1 b1 st' hPhi1 hdisj1 (List.nodup_cons.mp hnodup).2 hfold
      refine Phi_congr a (rest ++ i :: S) ((i :: rest) ++ S) st'.1 st'.2 ?_ this
      intro x
      simp only [List.mem_append, List.mem_cons]
      tauto

/-- Splitting a run of the inner loop at an append. -/
theorem foldOutputs_append (l1 l2 : List Nat)
    (st : List (List Int × Nat) × Analyser) :
    foldOutputs (l1 ++ l2) st =
      match foldOutputs l1 st with
      | none => none
      | some st' => foldOutputs l2 st' := by
  induction l1 generalizing st with
  | nil => rfl
  | cons i rest ih =>
    rw [List.cons_append, foldOutputs, foldOutputs]
    cases hfs : foldStep st i with
    | none => rfl
    | some st1 => exact ih st1

/-- The component loop is the inner loop over the concatenated outputs. -/
theorem foldComponents_eq_foldOutputs :
    ∀ (cs : List Component) (st : List (List Int × Nat) × Analyser),
    foldComponents cs st = foldOutputs (allOutputsOf cs) st := by
  intro cs
  induction cs with
  | nil => intro st; rfl
  | cons c rest ih =>
    intro st
    rw [foldComponents, allOutputsOf, foldOutputs_append]
    cases hfo : foldOutputs c.outputs st with
    | none => rfl
    | some st1 => exact ih st1

/-- A successful pass establishes the frame/dedup invariant for the full list
of boundary edges. -/
theorem propagate_constants_phi (a a' : Analyser)
    (h : propagate_constants a = FoldOutcome.ok a') :
    ∃ cache', Phi a (allOutputsOf (connected_components a)) cache' a' := by
  rw [propagate_constants] at h
  cases hfc : foldComponents (connected_components a) ([], a) with
  | none => rw [hfc] at h; cases h
  | some st =>
    rw [hfc] at h
    have ha' : a' = st.2 := (FoldOutcome.ok.inj h).symm
    rw [foldComponents_eq_foldOutputs] at hfc
    have hphi := foldOutputs_phi a (allOutputsOf (connected_components a)) [] [] a st
      (Phi_init a) (fun e _ hmem => by cases hmem) (cc_outputs_facts a).1 hfc
    refine ⟨st.1, ?_⟩
    rw [ha']
    refine Phi_congr a _ _ st.1 st.2 ?_ hphi
    intro x
    simp

/-- C9: a successful fold never deletes a node or an edge: the edge count is
unchanged, the node count is monotonically non-decreasing, existing nodes keep
their name, operation and id (only input lists may be rewritten during
rewiring), every edge the pass does not rewire is left unmodified, and each
rewired boundary edge differs from its original only in its source outlet. -/
theorem c9_frame (a a' : Analyser)
    (h : propagate_constants a = FoldOutcome.ok a') :
    a'.edges.length = a.edges.length ∧
    a.nodes.length ≤ a'.nodes.length ∧
    (∀ idx nOld, a.nodes.get? idx = some nOld → ∃ nNew,
      a'.nodes.get? idx = some nNew ∧ nNew.name = nOld.name ∧
      nNew.op_name = nOld.op_name ∧ nNew.op = nOld.op ∧ nNew.id = nOld.id) ∧
    (∀ e, e ∉ allOutputsOf (connected_components a) →
      a'.edges.get? e = a.edges.get? e) ∧
    (∀ e, e ∈ allOutputsOf (connected_components a) → ∃ old k,
      a.edges.get? e = some old ∧
      a'.edges.get? e = some ({ old with from_ := some (OutletId.new k 0) }) ∧
      a.nodes.length ≤ k) := by
  obtain ⟨cache', hPhi⟩ := propagate_constants_phi a a' h
  obtain ⟨h1, h2, h3, h4, h5, _, _, _⟩ := hPhi
  refine ⟨h1, h2, h3, h4, ?_⟩
  intro e he
  obtain ⟨old, k, ha, hb, hlo, _⟩ := h5 e he
  exact ⟨old, k, ha, hb, hlo⟩

/-- C9 witness: the frame facts hold on the concrete fold of `c3_a`. -/
theorem c9_frame_witness :
    propagate_constants c3_a = FoldOutcome.ok (foldOk c3_a) ∧
    ((foldOk c3_a).edges.length = c3_a.edges.length ∧
    c3_a.nodes.length ≤ (foldOk c3_a).nodes.length ∧
    (∀ idx nOld, c3_a.nodes.get? idx = some nOld → ∃ nNew,
      (foldOk c3_a).nodes.get? idx = some nNew ∧ nNew.name = nOld.name ∧
      nNew.op_name = nOld.op_name ∧ nNew.op = nOld.op ∧ nNew.id = nOld.id) ∧
    (∀ e, e ∉ allOutputsOf (connected_components c3_a) →
      (foldOk c3_a).edges.get? e = c3_a.edges.get? e) ∧
    (∀ e, e ∈ allOutputsOf (connected_components c3_a) → ∃ old k,
      c3_a.edges.get? e = some old ∧
      (foldOk c3_a).edges.get? e = some ({ old with from_ := some (OutletId.new k 0) }) ∧
      c3_a.nodes.length ≤ k)) :=
  ⟨by decide, c9_frame c3_a (foldOk c3_a) (by decide)⟩

/-- C7: within a single fold, two distinct boundary edges whose facts carry
bit-identical i32 tensor content are rewired to the same new
constant-producing node id, while two distinct boundary edges carrying
tensors of any other datatype (even with identical content) are rewired to
two distinct new nodes. -/
theorem c7_dedup (a a' : Analyser) (i j : Nat)
    (h : propagate_constants a = FoldOutcome.ok a')
    (hi : i ∈ allOutputsOf (connected_components a))
    (hj : j ∈ allOutputsOf (connected_components a))
    (hij : i ≠ j) :
    (∀ d oldi oldj, a.edges.get? i = some oldi → a.edges.get? j = some oldj →
      oldi.fact.value = some (Tensor.i32s d) →
      oldj.fact.value = some (Tensor.i32s d) →
      ∃ k, a'.edges.get? i = some ({ oldi with from_ := some (OutletId.new k 0) }) ∧
        a'.edges.get? j = some ({ oldj with from_ := some (OutletId.new k 0) }) ∧
        a.nodes.length ≤ k) ∧
    (∀ ti tj oldi oldj, a.edges.get? i = some oldi → a.edges.get? j = some oldj →
      oldi.fact.value = some (Tensor.other ti) →
      oldj.fact.value = some (Tensor.other tj) →
      ∃ ki kj, a'.edges.get? i = some ({ oldi with from_ := some (OutletId.new ki 0) }) ∧
        a'.edges.get? j = some ({ oldj with from_ := some (OutletId.new kj 0) }) ∧
        ki ≠ kj ∧ a.nodes.length ≤ ki ∧ a.nodes.length ≤ kj) := by
  obtain ⟨cache', hPhi⟩ := propagate_constants_phi a a' h
  obtain ⟨h1, h2, h3, h4, h5, h6, h7, h8⟩ := hPhi
  constructor
  · intro d oldi oldj hai haj hfi hfj
    obtain ⟨vi, hli, hbi⟩ := h7 i hi oldi d hai hfi
    obtain ⟨vj, hlj, hbj⟩ := h7 j hj oldj d haj hfj
    have hv : vi = vj := by
      rw [hli] at hlj
      exact Option.some.inj hlj
    obtain ⟨hlo, _⟩ := h6 (d, vi) (lookupCache_mem cache' d vi hli)
    exact ⟨vi, hbi, by rw [hv]; exact hbj, hlo⟩
  · intro ti tj oldi oldj hai haj hfi hfj
    obtain ⟨oldi', ki, hai', hbi, hloi, _⟩ := h5 i hi
    obtain ⟨oldj', kj, haj', hbj, hloj, _⟩ := h5 j hj
    have hoi : oldi' = oldi := by
      rw [hai] at hai'
      exact (Option.some.inj hai').symm
    have hoj : oldj' = oldj := by
      rw [haj] at haj'
      exact (Option.some.inj haj').symm
    rw [hoi] at hbi
    rw [hoj] at hbj
    refine ⟨ki, kj, hbi, hbj, ?_, hloi, hloj⟩
    exact h8 i hi j hj hij oldi oldj ti tj ki kj hai haj hfi hfj hbi hbj

/-- C7 witness: on `c2_a` the two boundary edges carry the identical i32
tensor `[7]` and are rewired to the same new node. -/
theorem c7_dedup_witness :
    propagate_constants c2_a = FoldOutcome.ok (foldOk c2_a) ∧
    (0 : Nat) ∈ allOutputsOf (connected_components c2_a) ∧
    (1 : Nat) ∈ allOutputsOf (connected_components c2_a) ∧
    (∀ d oldi oldj, c2_a.edges.get? 0 = some oldi → c2_a.edges.get? 1 = some oldj →
      oldi.fact.value = some (Tensor.i32s d) →
      oldj.fact.value = some (Tensor.i32s d) →
      ∃ k, (foldOk c2_a).edges.get? 0 =
          some ({ oldi with from_ := some (OutletId.new k 0) }) ∧
        (foldOk c2_a).edges.get? 1 =
          some ({ oldj with from_ := some (OutletId.new k 0) }) ∧
        c2_a.nodes.length ≤ k) :=
  ⟨by decide, by decide, by decide,
    (c7_dedup c2_a (foldOk c2_a) 0 1 (by decide) (by decide) (by decide)
      (by decide)).1⟩

/-- C6 witness: the constant source node of `c3_a` is placed in a component. -/
theorem c6_node_in_component_iff_witness :
    ∃ c, c ∈ connected_components c3_a ∧ Element.Node 0 ∈ c.elements :=
  (c6_node_in_component_iff c3_a 0).mpr (by decide)

end Tract
